import Mathlib

/-!
# A shallow embedding of the `go-aliaser` import registry and symbol table

This file models, in Lean 4, the parts of the `marcozac/go-aliaser`
repository that the verification claims are about:

* `importer.Importer` (`importer/importer.go`): the import registry with
  `AddImport`, `Imports`, `AliasedImports` and `AliasOf`.
* The `Aliaser` symbol table (`aliaser.go`): the four object sequences,
  the name index (`util/set`) and the duplicate policies
  (`OnDuplicateSkip`, `OnDuplicateReplace`, `OnDuplicatePanic`).
* The type walker `objectResolver.importType` (`objects.go`).
* `NewAliasedTuple` and `Signature.Wrapper` (`types.go`).

Go strings are modelled as `List Char`; for the ASCII package paths and
names involved, Go's byte-wise lexicographic comparison coincides with the
code-point lexicographic order on `List Char`.  Go maps keyed by strings
are modelled as association lists whose key sets are kept duplicate-free,
and a Go `panic` is modelled as the error branch of `Except`.
-/

/-- Go `string`, modelled as a list of characters. -/
abbrev Str := List Char

/-- The relevant data of a `*types.Package`: its import path and its name.
A Go `nil` package pointer is modelled as `Option.none` at use sites. -/
structure Pkg where
  path : Str
  name : Str
deriving DecidableEq, Repr

/-- State of `importer.Importer`: the registered packages, in insertion
order.  The Go field is a map `path -> *types.Package`; keeping the list
free of duplicated paths (which `addImport` guarantees) makes the list an
exact model of the map together with its insertion history. -/
structure Importer where
  imports : List Pkg
deriving DecidableEq, Repr

/-- `importer.New()`. -/
def Importer.new : Importer := ⟨[]⟩

/-- The set of registered paths, in insertion order. -/
def Importer.paths (imp : Importer) : List Str :=
  imp.imports.map Pkg.path

/-- `Importer.addImport` for a non-nil package: insert only if the path is
not yet registered. -/
def Importer.addImport (imp : Importer) (p : Pkg) : Importer :=
  if p.path ∈ imp.paths then imp else ⟨imp.imports ++ [p]⟩

/-- `Importer.AddImport`, whose argument may be Go `nil` (`none` here):
a nil package is ignored. -/
def Importer.addImportOpt (imp : Importer) (p : Option Pkg) : Importer :=
  match p with
  | none => imp
  | some p => imp.addImport p

/-- Registering a list of packages in order (a sequence of `AddImport`
calls). -/
def Importer.load (ps : List Pkg) : Importer :=
  ps.foldl Importer.addImport Importer.new

/-- Map lookup `imp.imports[path]` followed by `.Name()`.  The Go code
only looks up paths that are keys of the map, so the default branch is
unreachable there. -/
def Importer.nameOf (imp : Importer) (path : Str) : Str :=
  match imp.imports.find? (fun q => q.path = path) with
  | some q => q.name
  | none => []

/-! ## Decimal rendering, for the `fmt.Sprintf("%s_%d", name, i)` suffixes -/

/-- Fuelled decimal digits of `n` (most significant first), mirroring the
rendering of a nonnegative `%d` verb.  The fuel only forces termination;
`natChars` supplies enough of it. -/
def digitsAux : Nat → Nat → List Char
  | 0, _ => []
  | fuel + 1, n =>
    if n < 10 then [Nat.digitChar n]
    else digitsAux fuel (n / 10) ++ [Nat.digitChar (n % 10)]

/-- Decimal rendering of a natural number. -/
def natChars (n : Nat) : Str := digitsAux (n + 1) n

/-- Numeric value of a decimal digit character. -/
def chVal (c : Char) : Nat := c.toNat - 48

/-- Value of a digit string, most significant digit first. -/
def chainVal (acc : Nat) (ds : List Char) : Nat :=
  ds.foldl (fun a c => a * 10 + chVal c) acc

theorem chVal_digitChar {n : Nat} (h : n < 10) : chVal (Nat.digitChar n) = n := by
  interval_cases n <;> decide

theorem chainVal_append (acc : Nat) (l₁ l₂ : List Char) :
    chainVal acc (l₁ ++ l₂) = chainVal (chainVal acc l₁) l₂ := by
  simp [chainVal, List.foldl_append]

theorem digitsAux_succ (fuel n : Nat) :
    digitsAux (fuel + 1) n =
      if n < 10 then [Nat.digitChar n]
      else digitsAux fuel (n / 10) ++ [Nat.digitChar (n % 10)] := rfl

theorem digitsAux_spec :
    ∀ (fuel n : Nat), n < 10 ^ (fuel + 1) →
      digitsAux (fuel + 1) n ≠ [] ∧
      ∀ acc, chainVal acc (digitsAux (fuel + 1) n) =
        acc * 10 ^ (digitsAux (fuel + 1) n).length + n := by
  intro fuel
  induction fuel with
  | zero =>
    intro n hn
    have h10 : n < 10 := by simpa using hn
    refine ⟨by simp [digitsAux, h10], ?_⟩
    intro acc
    simp [digitsAux, h10, chainVal, chVal_digitChar h10]
  | succ g ih =>
    intro n hn
    by_cases h10 : n < 10
    · refine ⟨by simp [digitsAux, h10], ?_⟩
      intro acc
      simp [digitsAux, h10, chainVal, chVal_digitChar h10]
    · have hdiv : n / 10 < 10 ^ (g + 1) := by
        rw [Nat.div_lt_iff_lt_mul (by norm_num : (0:Nat) < 10)]
        calc n < 10 ^ (g + 1 + 1) := hn
        _ = 10 ^ (g + 1) * 10 := by rw [pow_succ]
      obtain ⟨hne, hval⟩ := ih (n / 10) hdiv
      constructor
      · rw [digitsAux_succ, if_neg h10]
        simp
      · intro acc
        have hmod : n % 10 < 10 := Nat.mod_lt _ (by norm_num)
        rw [digitsAux_succ, if_neg h10, chainVal_append, hval acc]
        have h1 : chainVal (acc * 10 ^ (digitsAux (g + 1) (n / 10)).length + n / 10)
            [Nat.digitChar (n % 10)]
            = (acc * 10 ^ (digitsAux (g + 1) (n / 10)).length + n / 10) * 10 + n % 10 := by
          simp [chainVal, chVal_digitChar hmod]
        rw [h1, List.length_append]
        have hdm : n / 10 * 10 + n % 10 = n := by omega
        calc (acc * 10 ^ (digitsAux (g + 1) (n / 10)).length + n / 10) * 10 + n % 10
            = acc * (10 ^ (digitsAux (g + 1) (n / 10)).length * 10) +
              (n / 10 * 10 + n % 10) := by ring
        _ = acc * 10 ^ ((digitsAux (g + 1) (n / 10)).length + [Nat.digitChar (n % 10)].length) + n := by
            rw [hdm]
            simp [pow_succ]

/-- `natChars` is injective: distinct numbers render to distinct digit
strings. -/
theorem natChars_inj : Function.Injective natChars := by
  have key : ∀ n : Nat, chainVal 0 (natChars n) = n := by
    intro n
    have hn : n < 10 ^ (n + 1) := by
      calc n < 2 ^ n := Nat.lt_two_pow n
      _ ≤ 10 ^ n := Nat.pow_le_pow_left (by norm_num) n
      _ ≤ 10 ^ (n + 1) := Nat.pow_le_pow_right (by norm_num) (Nat.le_succ n)
    have := (digitsAux_spec n n hn).2 0
    simpa [natChars] using this
  intro m n h
  rw [← key m, ← key n, h]

/-- `natChars` never renders to the empty string. -/
theorem natChars_ne_nil (n : Nat) : natChars n ≠ [] := by
  have hn : n < 10 ^ (n + 1) := by
    calc n < 2 ^ n := Nat.lt_two_pow n
    _ ≤ 10 ^ n := Nat.pow_le_pow_left (by norm_num) n
    _ ≤ 10 ^ (n + 1) := Nat.pow_le_pow_right (by norm_num) (Nat.le_succ n)
  exact (digitsAux_spec n n hn).1

/-! ## The alias-candidate sequence of `Importer.aliasImports`

The Go loop first tries the package name itself, then `name_2`, `name_3`,
…; `cand name k` is the `k`-th candidate tried. -/

/-- The `k`-th candidate alias for a package named `name`. -/
def cand (name : Str) : Nat → Str
  | 0 => name
  | k + 1 => name ++ '_' :: natChars (k + 2)

theorem cand_inj (name : Str) : Function.Injective (cand name) := by
  intro j k h
  match j, k with
  | 0, 0 => rfl
  | 0, k + 1 =>
    exfalso
    have := congrArg List.length h
    simp [cand] at this
  | j + 1, 0 =>
    exfalso
    have := congrArg List.length h
    simp [cand] at this
  | j + 1, k + 1 =>
    simp only [cand, List.append_cancel_left_eq, List.cons.injEq, true_and] at h
    have := natChars_inj h
    omega

/-- Pigeonhole: among the `used.length + 1` candidates starting at any
index `k₀`, at least one is not in `used`. -/
theorem exists_cand_not_mem (name : Str) (used : List Str) (k₀ : Nat) :
    ∃ k, k₀ ≤ k ∧ k ≤ k₀ + used.length ∧ cand name k ∉ used := by
  by_contra hc
  push_neg at hc
  have hsub : ((List.range' k₀ (used.length + 1)).map (cand name)) ⊆ used := by
    intro x hx
    obtain ⟨k, hk, rfl⟩ := List.mem_map.mp hx
    obtain ⟨h1, h2⟩ := List.mem_range'_1.mp hk
    exact hc k h1 (by omega)
  have hnd : ((List.range' k₀ (used.length + 1)).map (cand name)).Nodup :=
    (List.nodup_range' _ _).map (cand_inj name)
  have := (hnd.subperm hsub).length_le
  simp at this

/-- The candidate-search loop of `Importer.aliasImports` (the `aliasLoop`
label with its `goto`): starting from candidate index `k`, return the
first candidate not already used as an alias.  The Go loop is unbounded;
the fuel only forces termination in Lean, and `pickGo_spec` shows that the
fuel passed by `pickAlias` is never exhausted. -/
def pickGo (name : Str) (used : List Str) : Nat → Nat → Str
  | k, 0 => cand name k
  | k, fuel + 1 => if cand name k ∈ used then pickGo name used (k + 1) fuel else cand name k

/-- Choice of the alias for a package named `name` given the aliases
already assigned (`used`): the first available candidate. -/
def pickAlias (name : Str) (used : List Str) : Str :=
  pickGo name used 0 (used.length + 1)

theorem pickGo_spec (name : Str) (used : List Str) :
    ∀ (fuel k : Nat), (∃ j, k ≤ j ∧ j ≤ k + fuel ∧ cand name j ∉ used) →
      ∃ j, k ≤ j ∧ cand name j ∉ used ∧ pickGo name used k fuel = cand name j ∧
        ∀ j', k ≤ j' → j' < j → cand name j' ∈ used := by
  intro fuel
  induction fuel with
  | zero =>
    intro k hex
    obtain ⟨j, hkj, hjk, hnm⟩ := hex
    have : j = k := le_antisymm (by simpa using hjk) hkj
    subst this
    exact ⟨j, le_refl _, hnm, rfl, fun j' h1 h2 => absurd (lt_of_le_of_lt h1 h2) (lt_irrefl _)⟩
  | succ fuel ih =>
    intro k hex
    by_cases hmem : cand name k ∈ used
    · have hex' : ∃ j, k + 1 ≤ j ∧ j ≤ k + 1 + fuel ∧ cand name j ∉ used := by
        obtain ⟨j, hkj, hjk, hnm⟩ := hex
        refine ⟨j, ?_, by omega, hnm⟩
        rcases Nat.eq_or_lt_of_le hkj with h | h
        · exact absurd hmem (h ▸ hnm)
        · exact h
      obtain ⟨j, hkj, hnm, heq, hmin⟩ := ih (k + 1) hex'
      refine ⟨j, by omega, hnm, ?_, ?_⟩
      · simpa [pickGo, hmem] using heq
      · intro j' h1 h2
        rcases Nat.eq_or_lt_of_le h1 with h | h
        · exact h ▸ hmem
        · exact hmin j' h h2
    · exact ⟨k, le_refl _, hmem, by simp [pickGo, hmem],
        fun j' h1 h2 => absurd (lt_of_le_of_lt h1 h2) (lt_irrefl _)⟩

/-- The chosen alias is never one of the aliases already assigned. -/
theorem pickAlias_not_mem (name : Str) (used : List Str) :
    pickAlias name used ∉ used := by
  obtain ⟨k, hk0, hk, hnm⟩ := exists_cand_not_mem name used 0
  obtain ⟨j, _, hj, heq, _⟩ :=
    pickGo_spec name used (used.length + 1) 0 ⟨k, Nat.zero_le _, by omega, hnm⟩
  rw [pickAlias, heq]
  exact hj

/-- The chosen alias is the first available candidate. -/
theorem pickAlias_least (name : Str) (used : List Str) :
    ∃ j, cand name j ∉ used ∧ pickAlias name used = cand name j ∧
      ∀ j', j' < j → cand name j' ∈ used := by
  obtain ⟨k, hk0, hk, hnm⟩ := exists_cand_not_mem name used 0
  obtain ⟨j, _, hj, heq, hmin⟩ :=
    pickGo_spec name used (used.length + 1) 0 ⟨k, Nat.zero_le _, by omega, hnm⟩
  exact ⟨j, hj, heq, fun j' h => hmin j' (Nat.zero_le _) h⟩

/-! ## `Importer.aliasImports` -/

/-- The assignment loop of `Importer.aliasImports`: walk the sorted paths,
giving each the first candidate alias not already used (`acc` is the
`orderedImports` map built so far, as an association list in insertion
order; its value list is what the Go inner loop ranges over). -/
def aliasFold (nameOf : Str → Str) : List Str → List (Str × Str) → List (Str × Str)
  | [], acc => acc
  | p :: ps, acc => aliasFold nameOf ps (acc ++ [(p, pickAlias (nameOf p) (acc.map Prod.snd))])

/-- `Importer.aliasImports` (and so `AliasedImports` up to the cache):
sort the registered paths, then assign aliases in that order.  The result
is the `path -> alias` map as an association list in assignment order. -/
def Importer.aliasImports (imp : Importer) : List (Str × Str) :=
  aliasFold imp.nameOf (List.insertionSort (· ≤ ·) imp.paths) []

/-- `Importer.aliasOf` / `AliasOf`: the alias of a path, or the empty
string (the Go zero value) if the path is not registered. -/
def Importer.aliasOf (imp : Importer) (path : Str) : Str :=
  match imp.aliasImports.find? (fun kv => kv.1 = path) with
  | some kv => kv.2
  | none => []

example :
    (Importer.load [⟨"b/a".data, "fake".data⟩, ⟨"b/b".data, "fake".data⟩]).aliasImports
      = [("b/a".data, "fake".data), ("b/b".data, "fake_2".data)] := by decide

/-! ## Structure of the assignment fold -/

theorem aliasFold_append (f : Str → Str) (l₁ l₂ : List Str) (acc : List (Str × Str)) :
    aliasFold f (l₁ ++ l₂) acc = aliasFold f l₂ (aliasFold f l₁ acc) := by
  induction l₁ generalizing acc with
  | nil => simp [aliasFold]
  | cons p ps ih => simp [aliasFold, ih]

theorem aliasFold_fst (f : Str → Str) (ps : List Str) (acc : List (Str × Str)) :
    (aliasFold f ps acc).map Prod.fst = acc.map Prod.fst ++ ps := by
  induction ps generalizing acc with
  | nil => simp [aliasFold]
  | cons p ps ih => simp [aliasFold, ih]

theorem aliasFold_snd_nodup (f : Str → Str) (ps : List Str) (acc : List (Str × Str))
    (h : (acc.map Prod.snd).Nodup) : ((aliasFold f ps acc).map Prod.snd).Nodup := by
  induction ps generalizing acc with
  | nil => simpa [aliasFold] using h
  | cons p ps ih =>
    rw [aliasFold]
    refine ih _ ?_
    rw [List.map_append]
    refine List.Nodup.append h (List.nodup_singleton _) ?_
    intro a ha hb
    simp only [List.map_cons, List.map_nil, List.mem_singleton] at hb
    subst hb
    exact pickAlias_not_mem _ _ ha

theorem aliasFold_congr {f g : Str → Str} (ps : List Str) (acc : List (Str × Str))
    (h : ∀ p ∈ ps, f p = g p) : aliasFold f ps acc = aliasFold g ps acc := by
  induction ps generalizing acc with
  | nil => rfl
  | cons p ps ih =>
    rw [aliasFold, aliasFold, h p (by simp)]
    exact ih _ (fun q hq => h q (by simp [hq]))

/-! ## The registry as a finite map -/

/-- Coherence of a package list: two entries with the same path are the
same package.  Distinct packages have distinct import paths, so any list
of real packages is coherent. -/
def Coherent (l : List Pkg) : Prop := ∀ p ∈ l, ∀ q ∈ l, p.path = q.path → p = q

theorem find?_eq_some_of_nodup_paths {l : List Pkg}
    (hnd : (l.map Pkg.path).Nodup) {q : Pkg} (hq : q ∈ l) :
    l.find? (fun r => r.path = q.path) = some q := by
  induction l with
  | nil => cases hq
  | cons r t ih =>
    rw [List.map_cons, List.nodup_cons] at hnd
    rcases List.mem_cons.mp hq with h | h
    · subst h
      rw [List.find?_cons_of_pos _ (by simp)]
    · have hne : r.path ≠ q.path := by
        intro he
        exact hnd.1 (he ▸ List.mem_map_of_mem Pkg.path h)
      rw [List.find?_cons_of_neg _ (by simpa using hne)]
      exact ih hnd.2 h

theorem nameOf_eq_of_mem {imp : Importer} (hnd : imp.paths.Nodup) {q : Pkg}
    (hq : q ∈ imp.imports) : imp.nameOf q.path = q.name := by
  rw [Importer.nameOf, find?_eq_some_of_nodup_paths hnd hq]

theorem addImport_paths_nodup {imp : Importer} (hnd : imp.paths.Nodup) (p : Pkg) :
    (imp.addImport p).paths.Nodup := by
  rw [Importer.addImport]
  by_cases h : p.path ∈ imp.paths
  · simpa [h] using hnd
  · simp only [if_neg h]
    show ((imp.imports ++ [p]).map Pkg.path).Nodup
    rw [List.map_append]
    exact List.Nodup.append hnd (List.nodup_singleton _) (by simpa [Importer.paths] using h)

theorem foldl_addImport_paths_nodup (ps : List Pkg) :
    ∀ {imp : Importer}, imp.paths.Nodup → (ps.foldl Importer.addImport imp).paths.Nodup := by
  induction ps with
  | nil => intro imp h; exact h
  | cons p ps ih => intro imp h; exact ih (addImport_paths_nodup h p)

theorem load_paths_nodup (ps : List Pkg) : (Importer.load ps).paths.Nodup :=
  foldl_addImport_paths_nodup ps (by simp [Importer.new, Importer.paths])

theorem mem_addImport {imp : Importer} {p q : Pkg} :
    q ∈ (imp.addImport p).imports ↔
      q ∈ imp.imports ∨ (p.path ∉ imp.paths ∧ q = p) := by
  rw [Importer.addImport]
  by_cases h : p.path ∈ imp.paths
  · simp [h]
  · simp [h]

theorem mem_foldl_addImport (ps : List Pkg) :
    ∀ {imp : Importer}, Coherent (imp.imports ++ ps) →
      ∀ q, q ∈ (ps.foldl Importer.addImport imp).imports ↔ q ∈ imp.imports ∨ q ∈ ps := by
  induction ps with
  | nil => intro imp _ q; simp
  | cons p ps ih =>
    intro imp hco q
    rw [List.foldl_cons]
    by_cases h : p.path ∈ imp.paths
    · have hpim : p ∈ imp.imports := by
        obtain ⟨r, hr, hrp⟩ := List.mem_map.mp h
        have : r = p := hco r (by simp [hr]) p (by simp) hrp
        exact this ▸ hr
      have himp : imp.addImport p = imp := by rw [Importer.addImport, if_pos h]
      rw [himp]
      have hco' : Coherent (imp.imports ++ ps) := by
        intro a ha b hb hab
        refine hco a ?_ b ?_ hab <;>
          · simp only [List.mem_append, List.mem_cons] at ha hb ⊢
            tauto
      rw [ih hco' q]
      constructor
      · tauto
      · rintro (h1 | h1)
        · tauto
        · rcases List.mem_cons.mp h1 with h2 | h2
          · exact Or.inl (h2 ▸ hpim)
          · exact Or.inr h2
    · have himp : (imp.addImport p).imports = imp.imports ++ [p] := by
        rw [Importer.addImport, if_neg h]
      have hco' : Coherent ((imp.addImport p).imports ++ ps) := by
        intro a ha b hb hab
        rw [himp] at ha hb
        refine hco a ?_ b ?_ hab <;>
          · simp only [List.mem_append, List.mem_singleton, List.mem_cons] at ha hb ⊢
            tauto
      rw [ih hco' q, himp]
      simp only [List.mem_append, List.mem_singleton, List.mem_cons]
      tauto

theorem mem_load {ps : List Pkg} (hco : Coherent ps) (q : Pkg) :
    q ∈ (Importer.load ps).imports ↔ q ∈ ps := by
  have h0 : Importer.new.imports ++ ps = ps := rfl
  have := @mem_foldl_addImport ps Importer.new (h0 ▸ hco) q
  simpa [Importer.new, Importer.load] using this

/-! ## Determinism of the alias assignment -/

theorem aliasImports_perm {imp₁ imp₂ : Importer}
    (hperm : imp₁.imports.Perm imp₂.imports) (hnd : imp₁.paths.Nodup) :
    imp₁.aliasImports = imp₂.aliasImports := by
  have hpp : imp₁.paths.Perm imp₂.paths := hperm.map Pkg.path
  have hnd₂ : imp₂.paths.Nodup := hpp.nodup_iff.mp hnd
  have hsorted : List.insertionSort (· ≤ ·) imp₁.paths
      = List.insertionSort (· ≤ ·) imp₂.paths := by
    exact @List.eq_of_perm_of_sorted Str (· ≤ ·) inferInstance _ _
      (((List.perm_insertionSort _ _).trans hpp).trans
        (List.perm_insertionSort _ _).symm)
      (List.sorted_insertionSort _ _) (List.sorted_insertionSort _ _)
  rw [Importer.aliasImports, Importer.aliasImports, hsorted]
  refine aliasFold_congr _ _ ?_
  intro path hpath
  have hmem : path ∈ imp₂.paths := (List.perm_insertionSort _ _).mem_iff.mp hpath
  obtain ⟨q, hq, rfl⟩ := List.mem_map.mp hmem
  rw [nameOf_eq_of_mem hnd₂ hq, nameOf_eq_of_mem hnd (hperm.mem_iff.mpr hq)]

/-- Registering coherent package lists in any order yields the same alias
assignment. -/
theorem load_perm_aliasImports {ps ps' : List Pkg} (hco : Coherent ps)
    (hperm : ps'.Perm ps) :
    (Importer.load ps').aliasImports = (Importer.load ps).aliasImports := by
  have hco' : Coherent ps' := fun p hp q hq h =>
    hco p (hperm.mem_iff.mp hp) q (hperm.mem_iff.mp hq) h
  have hnd' : (Importer.load ps').imports.Nodup :=
    List.Nodup.of_map Pkg.path (load_paths_nodup ps')
  have hnd : (Importer.load ps).imports.Nodup :=
    List.Nodup.of_map Pkg.path (load_paths_nodup ps)
  have hp : (Importer.load ps').imports.Perm (Importer.load ps).imports := by
    rw [List.perm_ext_iff_of_nodup hnd' hnd]
    intro q
    rw [mem_load hco' q, mem_load hco q, hperm.mem_iff]
  exact aliasImports_perm hp (load_paths_nodup ps')

/-! ## The specification's description of the alias choice

The spec describes the alias of a package as: take the package's own name;
if that is already used, append `_2`, `_3`, … using the first available
suffix starting at 2.  `specPick` below is written from those words; the
refinement theorem for C2 proves it equal to the code's candidate loop. -/

theorem spec_suffix_exists (name : Str) (used : List Str) :
    ∃ i, 2 ≤ i ∧ name ++ '_' :: natChars i ∉ used := by
  obtain ⟨k, h1, h2, h3⟩ := exists_cand_not_mem name used 1
  obtain ⟨j, rfl⟩ := Nat.exists_eq_add_of_le h1
  exact ⟨j + 2, by omega, by simpa [cand, Nat.add_comm 1 j] using h3⟩

/-- Following the specification text: the suffix used on collision is the
least `i ≥ 2` such that `name_i` is not already used. -/
def specSuffix (name : Str) (used : List Str) : Nat :=
  Nat.find (spec_suffix_exists name used)

/-- Following the specification text: the candidate alias is the package
name itself; if that is already used, the name with the first available
`_i` suffix, `i ≥ 2`. -/
def specPick (name : Str) (used : List Str) : Str :=
  if name ∈ used then name ++ '_' :: natChars (specSuffix name used) else name

/-- Following the specification text: sort the registered paths
lexicographically, then give each path in that order the package name with
the first available suffix. -/
def specAliasImports (imp : Importer) : List (Str × Str) :=
  (List.insertionSort (· ≤ ·) imp.paths).foldl
    (fun acc path => acc ++ [(path, specPick (imp.nameOf path) (acc.map Prod.snd))]) []

theorem pickAlias_eq_specPick (name : Str) (used : List Str) :
    pickAlias name used = specPick name used := by
  obtain ⟨j, hnm, heq, hmin⟩ := pickAlias_least name used
  by_cases hname : name ∈ used
  · have hj : j ≠ 0 := by
      intro h
      subst h
      exact hnm hname
    obtain ⟨j', rfl⟩ := Nat.exists_eq_succ_of_ne_zero hj
    rw [heq, specPick, if_pos hname]
    have hfind : specSuffix name used = j' + 2 := by
      rw [specSuffix, Nat.find_eq_iff]
      refine ⟨⟨by omega, by simpa [cand] using hnm⟩, ?_⟩
      intro i hi hp
      obtain ⟨h2i, hnotin⟩ := hp
      obtain ⟨m, rfl⟩ := Nat.exists_eq_add_of_le h2i
      have : cand name (m + 1) ∈ used := hmin (m + 1) (by omega)
      exact hnotin (by simpa [cand, Nat.add_comm 2 m] using this)
    rw [hfind]
    simp [cand]
  · have hj : j = 0 := by
      by_contra h
      obtain ⟨j', rfl⟩ := Nat.exists_eq_succ_of_ne_zero h
      exact hname (hmin 0 (Nat.succ_pos _))
    subst hj
    rw [heq, specPick, if_neg hname]
    rfl

theorem aliasFold_eq_specFold (f : Str → Str) (l : List Str) :
    ∀ acc, aliasFold f l acc =
      l.foldl (fun acc path => acc ++ [(path, specPick (f path) (acc.map Prod.snd))]) acc := by
  induction l with
  | nil => intro acc; rfl
  | cons p ps ih =>
    intro acc
    rw [aliasFold, List.foldl_cons, pickAlias_eq_specPick, ih]

/-! ## Effect of a later `AddImport` on an existing assignment (C5) -/

theorem dropWhile_sorted_ge (x : Str) :
    ∀ S : List Str, List.Sorted (· ≤ ·) S →
      ∀ b ∈ S.dropWhile (fun q => decide (q < x)), x ≤ b := by
  intro S
  induction S with
  | nil =>
    intro _ b hb
    simp [List.dropWhile] at hb
  | cons a S ih =>
    intro hs b hb
    rw [List.dropWhile_cons] at hb
    by_cases hax : a < x
    · rw [if_pos (by simpa using hax)] at hb
      exact ih hs.of_cons b hb
    · rw [if_neg (by simpa using hax)] at hb
      rcases List.mem_cons.mp hb with h | h
      · exact h ▸ le_of_not_lt hax
      · exact le_trans (le_of_not_lt hax) (List.rel_of_sorted_cons hs b h)

theorem insertionSort_append_singleton (l : List Str) (x : Str) :
    List.insertionSort (· ≤ ·) (l ++ [x]) =
      (List.insertionSort (· ≤ ·) l).takeWhile (fun q => decide (q < x)) ++
        x :: (List.insertionSort (· ≤ ·) l).dropWhile (fun q => decide (q < x)) := by
  have hsorted : List.Sorted (· ≤ ·) (List.insertionSort (· ≤ ·) l) :=
    List.sorted_insertionSort _ _
  have hsplitPW : List.Pairwise (· ≤ ·)
      ((List.insertionSort (· ≤ ·) l).takeWhile (fun q => decide (q < x)) ++
        (List.insertionSort (· ≤ ·) l).dropWhile (fun q => decide (q < x))) := by
    rw [List.takeWhile_append_dropWhile]
    exact hsorted
  obtain ⟨h1, h2, h12⟩ := List.pairwise_append.mp hsplitPW
  have hge := dropWhile_sorted_ge x _ hsorted
  refine @List.eq_of_perm_of_sorted Str (· ≤ ·) inferInstance _ _ ?_
    (List.sorted_insertionSort _ _) ?_
  · refine (List.perm_insertionSort (· ≤ ·) (l ++ [x])).trans
      ((List.perm_append_singleton x l).trans
        ((List.Perm.cons x (List.perm_insertionSort (· ≤ ·) l).symm).trans ?_))
    nth_rewrite 1 [← List.takeWhile_append_dropWhile (fun q => decide (q < x))
      (List.insertionSort (· ≤ ·) l)]
    exact List.perm_middle.symm
  · rw [List.Sorted, List.pairwise_append]
    refine ⟨h1, List.Pairwise.cons hge h2, ?_⟩
    intro a ha b hb
    have hax : a < x := by
      have := List.mem_takeWhile_imp ha
      simpa using this
    rcases List.mem_cons.mp hb with h | h
    · exact le_of_lt (h ▸ hax)
    · exact h12 a ha b h

theorem aliasFold_exists_tail (f : Str → Str) (ps : List Str) (acc : List (Str × Str)) :
    ∃ l, aliasFold f ps acc = acc ++ l := by
  induction ps generalizing acc with
  | nil => exact ⟨[], by simp [aliasFold]⟩
  | cons p ps ih =>
    obtain ⟨l, hl⟩ := ih (acc ++ [(p, pickAlias (f p) (acc.map Prod.snd))])
    exact ⟨_, by rw [aliasFold, hl, List.append_assoc]⟩

theorem nameOf_addImport {imp : Importer} {p : Pkg} (hnew : p.path ∉ imp.paths)
    {path : Str} (hq : path ∈ imp.paths) :
    (imp.addImport p).nameOf path = imp.nameOf path := by
  obtain ⟨r, hr, hrp⟩ := List.mem_map.mp hq
  have hsome : (imp.imports.find? (fun s => s.path = path)).isSome :=
    List.find?_isSome.mpr ⟨r, hr, by simp [hrp]⟩
  obtain ⟨kv, hkv⟩ := Option.isSome_iff_exists.mp hsome
  rw [Importer.nameOf, Importer.nameOf, Importer.addImport, if_neg hnew]
  show (match (imp.imports ++ [p]).find? (fun s => s.path = path) with
    | some q => q.name | none => []) = _
  rw [List.find?_append, hkv]
  rfl

/-- Adding a new package only recomputes aliases of paths that sort after
the new path: any registered path lexically before it keeps its alias. -/
theorem aliasOf_addImport_lt {imp : Importer} {p : Pkg}
    (hnew : p.path ∉ imp.paths) {q : Str} (hq : q ∈ imp.paths) (hlt : q < p.path) :
    (imp.addImport p).aliasOf q = imp.aliasOf q := by
  have hpaths' : (imp.addImport p).paths = imp.paths ++ [p.path] := by
    rw [Importer.addImport, if_neg hnew]
    show (imp.imports ++ [p]).map Pkg.path = _
    simp [Importer.paths]
  have e1 : imp.aliasImports =
      aliasFold imp.nameOf
        ((List.insertionSort (· ≤ ·) imp.paths).dropWhile (fun s => decide (s < p.path)))
        (aliasFold imp.nameOf
          ((List.insertionSort (· ≤ ·) imp.paths).takeWhile (fun s => decide (s < p.path))) []) := by
    rw [Importer.aliasImports, ← aliasFold_append,
      List.takeWhile_append_dropWhile]
  have e2 : (imp.addImport p).aliasImports =
      aliasFold (imp.addImport p).nameOf
        (p.path :: (List.insertionSort (· ≤ ·) imp.paths).dropWhile (fun s => decide (s < p.path)))
        (aliasFold (imp.addImport p).nameOf
          ((List.insertionSort (· ≤ ·) imp.paths).takeWhile (fun s => decide (s < p.path))) []) := by
    rw [Importer.aliasImports, hpaths', insertionSort_append_singleton, aliasFold_append]
  have hcongr : aliasFold (imp.addImport p).nameOf
      ((List.insertionSort (· ≤ ·) imp.paths).takeWhile (fun s => decide (s < p.path))) [] =
      aliasFold imp.nameOf
      ((List.insertionSort (· ≤ ·) imp.paths).takeWhile (fun s => decide (s < p.path))) [] := by
    refine aliasFold_congr _ _ ?_
    intro s hs
    have hsS : s ∈ List.insertionSort (· ≤ ·) imp.paths :=
      (List.takeWhile_sublist _).mem hs
    exact nameOf_addImport hnew
      ((List.perm_insertionSort (· ≤ ·) imp.paths).mem_iff.mp hsS)
  rw [hcongr] at e2
  have hqS : q ∈ List.insertionSort (· ≤ ·) imp.paths :=
    (List.perm_insertionSort (· ≤ ·) imp.paths).mem_iff.mpr hq
  have hqsplit : q ∈ (List.insertionSort (· ≤ ·) imp.paths).takeWhile (fun s => decide (s < p.path)) ++
      (List.insertionSort (· ≤ ·) imp.paths).dropWhile (fun s => decide (s < p.path)) := by
    rw [List.takeWhile_append_dropWhile]
    exact hqS
  have hqS₁ : q ∈ (List.insertionSort (· ≤ ·) imp.paths).takeWhile (fun s => decide (s < p.path)) := by
    rcases List.mem_append.mp hqsplit with h | h
    · exact h
    · exact absurd (dropWhile_sorted_ge p.path _ (List.sorted_insertionSort _ _) q h)
        (not_le_of_lt hlt)
  have hqA : q ∈ (aliasFold imp.nameOf
      ((List.insertionSort (· ≤ ·) imp.paths).takeWhile (fun s => decide (s < p.path))) []).map
        Prod.fst := by
    rw [aliasFold_fst]
    simpa using hqS₁
  obtain ⟨kv, hkvA, hkvq⟩ := List.mem_map.mp hqA
  obtain ⟨l₂, hl₂⟩ := aliasFold_exists_tail imp.nameOf
    ((List.insertionSort (· ≤ ·) imp.paths).dropWhile (fun s => decide (s < p.path)))
    (aliasFold imp.nameOf
      ((List.insertionSort (· ≤ ·) imp.paths).takeWhile (fun s => decide (s < p.path))) [])
  obtain ⟨l₃, hl₃⟩ := aliasFold_exists_tail (imp.addImport p).nameOf
    (p.path :: (List.insertionSort (· ≤ ·) imp.paths).dropWhile (fun s => decide (s < p.path)))
    (aliasFold imp.nameOf
      ((List.insertionSort (· ≤ ·) imp.paths).takeWhile (fun s => decide (s < p.path))) [])
  rw [Importer.aliasOf, Importer.aliasOf, e1, e2, hl₂, hl₃,
    List.find?_append, List.find?_append]
  have hsome : ((aliasFold imp.nameOf
      ((List.insertionSort (· ≤ ·) imp.paths).takeWhile (fun s => decide (s < p.path))) []).find?
        (fun kv => kv.1 = q)).isSome :=
    List.find?_isSome.mpr ⟨kv, hkvA, by simp [hkvq]⟩
  obtain ⟨kv₀, hkv₀⟩ := Option.isSome_iff_exists.mp hsome
  rw [hkv₀]
  rfl

instance (l : List Pkg) : Decidable (Coherent l) :=
  decidable_of_iff (∀ p ∈ l, ∀ q ∈ l, p.path = q.path → p = q) Iff.rfl

/-! ## `NewAliasedTuple` and `Signature.Wrapper` (`types.go`) -/

/-- `NewAliasedTuple`, at the level of the tuple's variable names (the
only data it changes): a name contained in the alias list is suffixed with
an underscore, every other name is kept. -/
def newAliasedTuple (aliases : List Str) (names : List Str) : List Str :=
  names.map (fun n => if n ∈ aliases then n ++ ['_'] else n)

/-- The parameter (or result) names produced by `Signature.Wrapper`: the
original tuple names mangled by `NewAliasedTuple` against the values of
`AliasedImports` (the order in which Go ranges over the map values does
not matter, since `NewAliasedTuple` only tests membership). -/
def wrapperTupleNames (imp : Importer) (names : List Str) : List Str :=
  newAliasedTuple (imp.aliasImports.map Prod.snd) names

/-! ## Concrete packages used in witnesses -/

def fakePkg1 : Pkg := ⟨"fakeA/pkg1".data, "fake".data⟩

def fakePkg2 : Pkg := ⟨"fakeA/pkg2".data, "fake".data⟩

def fakePkg3 : Pkg := ⟨"fakeA/pkg3".data, "fake".data⟩

/-! ## Claim theorems for the import registry -/

/-- C1: for every finite coherent set of registered packages, possibly
with colliding base names, `AliasedImports()` maps distinct paths to
distinct aliases, and the assignment depends only on the final registered
set: loading any permutation of the registration sequence yields the same
mapping. -/
theorem c1_aliasedImports_injective_and_order_independent
    (ps ps' : List Pkg) (hco : Coherent ps) (hperm : ps'.Perm ps) :
    (∀ e₁ ∈ (Importer.load ps).aliasImports, ∀ e₂ ∈ (Importer.load ps).aliasImports,
        e₁.1 ≠ e₂.1 → e₁.2 ≠ e₂.2) ∧
    (Importer.load ps').aliasImports = (Importer.load ps).aliasImports := by
  refine ⟨?_, load_perm_aliasImports hco hperm⟩
  intro e₁ h₁ e₂ h₂ hne heq
  have hnodsnd : ((Importer.load ps).aliasImports.map Prod.snd).Nodup := by
    rw [Importer.aliasImports]
    exact aliasFold_snd_nodup _ _ _ (by simp)
  exact hne (congrArg Prod.fst (List.inj_on_of_nodup_map hnodsnd h₁ h₂ heq))

theorem c1_witness :
    Coherent [fakePkg1, fakePkg2, fakePkg3] ∧
      ([fakePkg2, fakePkg3, fakePkg1].Perm [fakePkg1, fakePkg2, fakePkg3]) ∧
      ((∀ e₁ ∈ (Importer.load [fakePkg1, fakePkg2, fakePkg3]).aliasImports,
          ∀ e₂ ∈ (Importer.load [fakePkg1, fakePkg2, fakePkg3]).aliasImports,
          e₁.1 ≠ e₂.1 → e₁.2 ≠ e₂.2) ∧
        (Importer.load [fakePkg2, fakePkg3, fakePkg1]).aliasImports =
          (Importer.load [fakePkg1, fakePkg2, fakePkg3]).aliasImports) :=
  ⟨by decide, by decide,
    c1_aliasedImports_injective_and_order_independent
      [fakePkg1, fakePkg2, fakePkg3] [fakePkg2, fakePkg3, fakePkg1]
      (by decide) (by decide)⟩

/-- C2: `AliasedImports()` assigns aliases by walking the registered
paths in lexicographic order and giving each package its own name with
the first available `_i` suffix (`i ≥ 2`) when the bare name is taken —
stated as equality with `specAliasImports`, which is written from the
specification's wording — and on the three same-named `fake` packages,
registered in any order, it yields `fake`, `fake_2`, `fake_3` in path
order. -/
theorem c2_aliasImports_sorted_first_available (imp : Importer) (ps : List Pkg)
    (hperm : ps.Perm [fakePkg1, fakePkg2, fakePkg3]) :
    imp.aliasImports = specAliasImports imp ∧
    (Importer.load ps).aliasImports =
      [("fakeA/pkg1".data, "fake".data), ("fakeA/pkg2".data, "fake_2".data),
        ("fakeA/pkg3".data, "fake_3".data)] := by
  constructor
  · rw [Importer.aliasImports, specAliasImports, aliasFold_eq_specFold]
  · rw [load_perm_aliasImports (by decide) hperm]
    decide

theorem c2_witness :
    ([fakePkg3, fakePkg1, fakePkg2].Perm [fakePkg1, fakePkg2, fakePkg3]) ∧
      ((Importer.new.aliasImports = specAliasImports Importer.new) ∧
        (Importer.load [fakePkg3, fakePkg1, fakePkg2]).aliasImports =
          [("fakeA/pkg1".data, "fake".data), ("fakeA/pkg2".data, "fake_2".data),
            ("fakeA/pkg3".data, "fake_3".data)]) :=
  ⟨by decide,
    c2_aliasImports_sorted_first_available Importer.new [fakePkg3, fakePkg1, fakePkg2]
      (by decide)⟩

/-- C5 (amended): after adding one new package, the recomputed assignment
agrees with the previous one on every previously registered path that
sorts lexically before the new package's path; only aliases of paths
sorting after the new path may change (regardless of the packages'
names). -/
theorem c5_amended_alias_stable_before_new_path {imp : Importer} {p : Pkg}
    (hnew : p.path ∉ imp.paths) {q : Str} (hq : q ∈ imp.paths) (hlt : q < p.path) :
    (imp.addImport p).aliasOf q = imp.aliasOf q :=
  aliasOf_addImport_lt hnew hq hlt

theorem c5_witness :
    (("b/b".data : Str) ∉ (Importer.load [⟨"a/a".data, "x".data⟩, ⟨"c/c".data, "y".data⟩]).paths) ∧
      (("a/a".data : Str) ∈ (Importer.load [⟨"a/a".data, "x".data⟩, ⟨"c/c".data, "y".data⟩]).paths) ∧
      (("a/a".data : Str) < "b/b".data) ∧
      ((Importer.load [⟨"a/a".data, "x".data⟩, ⟨"c/c".data, "y".data⟩]).addImport
          ⟨"b/b".data, "z".data⟩).aliasOf "a/a".data =
        (Importer.load [⟨"a/a".data, "x".data⟩, ⟨"c/c".data, "y".data⟩]).aliasOf "a/a".data :=
  ⟨by decide, by decide, by decide,
    c5_amended_alias_stable_before_new_path (by decide) (by decide) (by decide)⟩

/-- C5 as stated is false: adding `a/a` (named `fake_2`) to a registry
holding `b/a` and `b/b` (both named `fake`) changes the alias of `b/b`
from `fake_2` to `fake_3`, although `b/b`'s package name `fake` differs
from the new package's name `fake_2`. -/
theorem c5_counterexample :
    (Importer.load [⟨"b/a".data, "fake".data⟩, ⟨"b/b".data, "fake".data⟩]).nameOf "b/b".data
        ≠ "fake_2".data ∧
      (Importer.load [⟨"b/a".data, "fake".data⟩, ⟨"b/b".data, "fake".data⟩]).aliasOf "b/b".data
        = "fake_2".data ∧
      ((Importer.load [⟨"b/a".data, "fake".data⟩, ⟨"b/b".data, "fake".data⟩]).addImport
          ⟨"a/a".data, "fake_2".data⟩).aliasOf "b/b".data = "fake_3".data := by
  decide

/-- C8: `AddImport` with a nil package is a no-op, and `AddImport` with an
already-registered path leaves the registry — its contents, its size, and
the subsequent `AliasedImports()` — unchanged. -/
theorem c8_addImport_nil_and_duplicate_noop (imp : Importer) (p : Pkg) :
    imp.addImportOpt none = imp ∧
    (p.path ∈ imp.paths →
      imp.addImport p = imp ∧
      (imp.addImport p).imports.length = imp.imports.length ∧
      (imp.addImport p).aliasImports = imp.aliasImports) := by
  refine ⟨rfl, fun h => ?_⟩
  have he : imp.addImport p = imp := by rw [Importer.addImport, if_pos h]
  exact ⟨he, by rw [he], by rw [he]⟩

theorem c8_witness :
    (fakePkg1.path ∈ (Importer.load [fakePkg1, fakePkg2]).paths) ∧
      ((Importer.load [fakePkg1, fakePkg2]).addImportOpt none =
          Importer.load [fakePkg1, fakePkg2] ∧
        ((Importer.load [fakePkg1, fakePkg2]).addImport fakePkg1 =
            Importer.load [fakePkg1, fakePkg2] ∧
          ((Importer.load [fakePkg1, fakePkg2]).addImport fakePkg1).imports.length =
            (Importer.load [fakePkg1, fakePkg2]).imports.length ∧
          ((Importer.load [fakePkg1, fakePkg2]).addImport fakePkg1).aliasImports =
            (Importer.load [fakePkg1, fakePkg2]).aliasImports)) :=
  ⟨by decide,
    (c8_addImport_nil_and_duplicate_noop (Importer.load [fakePkg1, fakePkg2]) fakePkg1).1,
    (c8_addImport_nil_and_duplicate_noop (Importer.load [fakePkg1, fakePkg2]) fakePkg1).2
      (by decide)⟩

/-- C6 as stated is false: with registered packages named `a` (at `x/a`)
and `a_` (at `x/b`), the finalized aliases are `a` and `a_`; a parameter
named `a` is mangled to `a_`, which still equals the finalized alias of
`x/b`.  The single-pass `_` suffix does not re-check the mangled name. -/
theorem c6_counterexample :
    "a_".data ∈ wrapperTupleNames
        (Importer.load [⟨"x/a".data, "a".data⟩, ⟨"x/b".data, "a_".data⟩]) ["a".data] ∧
      "a_".data ∈ (Importer.load
        [⟨"x/a".data, "a".data⟩, ⟨"x/b".data, "a_".data⟩]).aliasImports.map Prod.snd := by
  decide

/-- C6 (amended): every parameter or result name equal to some finalized
alias is replaced by the name suffixed with `_`, other names are kept;
consequently, whenever no finalized alias is itself a finalized alias
followed by `_`, the wrapper signature has no parameter or result name
equal to any finalized import alias. -/
theorem c6_amended_wrapper_names_avoid_aliases (imp : Importer) (names : List Str)
    (hsafe : ∀ x ∈ imp.aliasImports.map Prod.snd,
      x ++ ['_'] ∉ imp.aliasImports.map Prod.snd) :
    (∀ n ∈ names, n ∈ imp.aliasImports.map Prod.snd →
      (n ++ ['_']) ∈ wrapperTupleNames imp names) ∧
    (∀ m ∈ wrapperTupleNames imp names, m ∉ imp.aliasImports.map Prod.snd) := by
  constructor
  · intro n hn hmem
    rw [wrapperTupleNames, newAliasedTuple]
    refine List.mem_map.mpr ⟨n, hn, ?_⟩
    rw [if_pos hmem]
  · intro m hm
    obtain ⟨n, hn, rfl⟩ := List.mem_map.mp hm
    by_cases hmem : n ∈ imp.aliasImports.map Prod.snd
    · rw [if_pos hmem]
      exact hsafe n hmem
    · rw [if_neg hmem]
      exact hmem

theorem c6_witness :
    (∀ x ∈ (Importer.load [⟨"x/a".data, "a".data⟩]).aliasImports.map Prod.snd,
      x ++ ['_'] ∉ (Importer.load [⟨"x/a".data, "a".data⟩]).aliasImports.map Prod.snd) ∧
      ((∀ n ∈ [("a".data : Str), "b".data],
          n ∈ (Importer.load [⟨"x/a".data, "a".data⟩]).aliasImports.map Prod.snd →
          (n ++ ['_']) ∈ wrapperTupleNames (Importer.load [⟨"x/a".data, "a".data⟩])
            [("a".data : Str), "b".data]) ∧
        (∀ m ∈ wrapperTupleNames (Importer.load [⟨"x/a".data, "a".data⟩])
            [("a".data : Str), "b".data],
          m ∉ (Importer.load [⟨"x/a".data, "a".data⟩]).aliasImports.map Prod.snd)) :=
  ⟨by decide,
    c6_amended_wrapper_names_avoid_aliases (Importer.load [⟨"x/a".data, "a".data⟩])
      [("a".data : Str), "b".data] (by decide)⟩

/-! ## The type walker `objectResolver.importType` (`objects.go`)

`Ty` models the `go/types` type expressions the walker distinguishes.
A named type carries its owning package (`tn.Pkg()`, possibly nil), its
underlying type (which the walker deliberately does not visit), the
constraints of its type parameters, and its type arguments — the two
trailing interface checks of `importType` fire for `*types.Named`.
A signature carries parameters, results and it also answers the
`TypeParams()` check, so its constraints are walked too.  Tuple entries,
struct fields and interface methods are `*types.Var`/`*types.Func`
objects: the walker registers their own package and then their type
(`importObject`), so `VarList` entries carry a package and a type. -/

mutual
inductive Ty where
  | basic : Ty
  | named (pkg : Option Pkg) (under : Ty) (constraints : TyList) (args : TyList) : Ty
  | ptr (elem : Ty) : Ty
  | slice (elem : Ty) : Ty
  | array (elem : Ty) : Ty
  | chan (elem : Ty) : Ty
  | map (key : Ty) (elem : Ty) : Ty
  | sig (params : VarList) (results : VarList) (constraints : TyList) : Ty
  | strct (fields : VarList) : Ty
  | iface (methods : VarList) (embeddeds : TyList) : Ty
inductive TyList where
  | nil : TyList
  | cons (t : Ty) (ts : TyList) : TyList
inductive VarList where
  | nil : VarList
  | cons (pkg : Option Pkg) (t : Ty) (vs : VarList) : VarList
end

mutual
/-- `objectResolver.importType`: walk a type expression and register the
packages it mentions.  A named type registers only its owner and then its
type-parameter constraints and type arguments, never its underlying
type. -/
def importType (imp : Importer) : Ty → Importer
  | .basic => imp
  | .named pkg _under cs args =>
    importTyList (importTyList (imp.addImportOpt pkg) cs) args
  | .ptr t => importType imp t
  | .slice t => importType imp t
  | .array t => importType imp t
  | .chan t => importType imp t
  | .map k v => importType (importType imp k) v
  | .sig ps rs cs => importTyList (importVarList (importVarList imp ps) rs) cs
  | .strct fs => importVarList imp fs
  | .iface ms es => importTyList (importVarList imp ms) es
/-- The walk over a list of types (`ForEach(o.importType)`). -/
def importTyList (imp : Importer) : TyList → Importer
  | .nil => imp
  | .cons t ts => importTyList (importType imp t) ts
/-- The walk over tuple entries, struct fields or interface methods
(`importObject`: `AddImport(pt.Pkg())` then `importType(pt.Type())`). -/
def importVarList (imp : Importer) : VarList → Importer
  | .nil => imp
  | .cons pkg t vs => importVarList (importType (imp.addImportOpt pkg) t) vs
end

mutual
/-- All packages the walker registers from a type: owners of named types
plus the owners of tuple/field/method objects, in walk order. -/
def pkgsOfTy : Ty → List Pkg
  | .basic => []
  | .named pkg _under cs args => pkg.toList ++ pkgsOfTyList cs ++ pkgsOfTyList args
  | .ptr t => pkgsOfTy t
  | .slice t => pkgsOfTy t
  | .array t => pkgsOfTy t
  | .chan t => pkgsOfTy t
  | .map k v => pkgsOfTy k ++ pkgsOfTy v
  | .sig ps rs cs => pkgsOfVarList ps ++ pkgsOfVarList rs ++ pkgsOfTyList cs
  | .strct fs => pkgsOfVarList fs
  | .iface ms es => pkgsOfVarList ms ++ pkgsOfTyList es
def pkgsOfTyList : TyList → List Pkg
  | .nil => []
  | .cons t ts => pkgsOfTy t ++ pkgsOfTyList ts
def pkgsOfVarList : VarList → List Pkg
  | .nil => []
  | .cons pkg t vs => pkg.toList ++ pkgsOfTy t ++ pkgsOfVarList vs
end

mutual
/-- Owners of the named types reachable through the walked edges only
(pointers, slices, arrays, maps, channels, signature parameters, results
and constraints, struct fields, interface methods and embeddeds, and a
named type's constraints and arguments — not its underlying type). -/
def namedOwnersTy : Ty → List Pkg
  | .basic => []
  | .named pkg _under cs args => pkg.toList ++ namedOwnersTyList cs ++ namedOwnersTyList args
  | .ptr t => namedOwnersTy t
  | .slice t => namedOwnersTy t
  | .array t => namedOwnersTy t
  | .chan t => namedOwnersTy t
  | .map k v => namedOwnersTy k ++ namedOwnersTy v
  | .sig ps rs cs => namedOwnersVarList ps ++ namedOwnersVarList rs ++ namedOwnersTyList cs
  | .strct fs => namedOwnersVarList fs
  | .iface ms es => namedOwnersVarList ms ++ namedOwnersTyList es
def namedOwnersTyList : TyList → List Pkg
  | .nil => []
  | .cons t ts => namedOwnersTy t ++ namedOwnersTyList ts
def namedOwnersVarList : VarList → List Pkg
  | .nil => []
  | .cons _pkg t vs => namedOwnersTy t ++ namedOwnersVarList vs
end

theorem pre_trans {a b c : Importer} (h₁ : ∃ l, b.imports = a.imports ++ l)
    (h₂ : ∃ l, c.imports = b.imports ++ l) : ∃ l, c.imports = a.imports ++ l := by
  obtain ⟨l₁, hl₁⟩ := h₁
  obtain ⟨l₂, hl₂⟩ := h₂
  exact ⟨l₁ ++ l₂, by rw [hl₂, hl₁, List.append_assoc]⟩

theorem addImportOpt_pre (imp : Importer) (p : Option Pkg) :
    ∃ l, (imp.addImportOpt p).imports = imp.imports ++ l := by
  match p with
  | none => exact ⟨[], by simp [Importer.addImportOpt]⟩
  | some q =>
    rw [Importer.addImportOpt, Importer.addImport]
    by_cases h : q.path ∈ imp.paths
    · exact ⟨[], by simp [h]⟩
    · exact ⟨[q], by simp [h]⟩

theorem paths_mono_of_pre {a b : Importer} (h : ∃ l, b.imports = a.imports ++ l)
    (s : Str) (hs : s ∈ a.paths) : s ∈ b.paths := by
  obtain ⟨l, hl⟩ := h
  rw [Importer.paths, hl, List.map_append, List.mem_append]
  exact Or.inl hs

theorem mem_paths_addImportOpt (imp : Importer) (q : Pkg) :
    q.path ∈ (imp.addImportOpt (some q)).paths := by
  rw [Importer.addImportOpt, Importer.addImport]
  by_cases h : q.path ∈ imp.paths
  · simp only [if_pos h]
    exact h
  · rw [if_neg h]
    show q.path ∈ (imp.imports ++ [q]).map Pkg.path
    simp

theorem addImportOpt_paths_sub (imp : Importer) (p : Option Pkg) (s : Str)
    (hs : s ∈ (imp.addImportOpt p).paths) : s ∈ imp.paths ∨ s ∈ p.toList.map Pkg.path := by
  match p with
  | none => exact Or.inl hs
  | some q =>
    rw [Importer.addImportOpt, Importer.addImport] at hs
    by_cases h : q.path ∈ imp.paths
    · rw [if_pos h] at hs
      exact Or.inl hs
    · rw [if_neg h] at hs
      have : s ∈ (imp.imports ++ [q]).map Pkg.path := hs
      rw [List.map_append, List.mem_append] at this
      rcases this with h1 | h1
      · exact Or.inl h1
      · exact Or.inr (by simpa using h1)

mutual
theorem importType_pre : ∀ (imp : Importer) (t : Ty),
    ∃ l, (importType imp t).imports = imp.imports ++ l
  | imp, .basic => ⟨[], by simp [importType]⟩
  | imp, .named pkg _u cs args =>
    pre_trans (pre_trans (addImportOpt_pre imp pkg) (importTyList_pre _ cs))
      (importTyList_pre _ args)
  | imp, .ptr t => importType_pre imp t
  | imp, .slice t => importType_pre imp t
  | imp, .array t => importType_pre imp t
  | imp, .chan t => importType_pre imp t
  | imp, .map k v => pre_trans (importType_pre imp k) (importType_pre _ v)
  | imp, .sig ps rs cs =>
    pre_trans (pre_trans (importVarList_pre imp ps) (importVarList_pre _ rs))
      (importTyList_pre _ cs)
  | imp, .strct fs => importVarList_pre imp fs
  | imp, .iface ms es => pre_trans (importVarList_pre imp ms) (importTyList_pre _ es)
theorem importTyList_pre : ∀ (imp : Importer) (ts : TyList),
    ∃ l, (importTyList imp ts).imports = imp.imports ++ l
  | imp, .nil => ⟨[], by simp [importTyList]⟩
  | imp, .cons t ts => pre_trans (importType_pre imp t) (importTyList_pre _ ts)
theorem importVarList_pre : ∀ (imp : Importer) (vs : VarList),
    ∃ l, (importVarList imp vs).imports = imp.imports ++ l
  | imp, .nil => ⟨[], by simp [importVarList]⟩
  | imp, .cons pkg t vs =>
    pre_trans (pre_trans (addImportOpt_pre imp pkg) (importType_pre _ t))
      (importVarList_pre _ vs)
end

mutual
theorem importType_complete : ∀ (imp : Importer) (t : Ty) (p : Pkg),
    p ∈ pkgsOfTy t → p.path ∈ (importType imp t).paths
  | imp, .basic, p, hp => absurd hp (by simp [pkgsOfTy])
  | imp, .named pkg _u cs args, p, hp => by
    simp only [pkgsOfTy, List.mem_append] at hp
    show p.path ∈ (importTyList (importTyList (imp.addImportOpt pkg) cs) args).paths
    rcases hp with (hp | hp) | hp
    · have hpkg : pkg = some p := by
        cases pkg <;> simp_all [Option.toList]
      subst hpkg
      exact paths_mono_of_pre (importTyList_pre _ args) _
        (paths_mono_of_pre (importTyList_pre _ cs) _ (mem_paths_addImportOpt imp p))
    · exact paths_mono_of_pre (importTyList_pre _ args) _
        (importTyList_complete _ cs p hp)
    · exact importTyList_complete _ args p hp
  | imp, .ptr t, p, hp => importType_complete imp t p hp
  | imp, .slice t, p, hp => importType_complete imp t p hp
  | imp, .array t, p, hp => importType_complete imp t p hp
  | imp, .chan t, p, hp => importType_complete imp t p hp
  | imp, .map k v, p, hp => by
    simp only [pkgsOfTy, List.mem_append] at hp
    show p.path ∈ (importType (importType imp k) v).paths
    rcases hp with hp | hp
    · exact paths_mono_of_pre (importType_pre _ v) _ (importType_complete imp k p hp)
    · exact importType_complete _ v p hp
  | imp, .sig ps rs cs, p, hp => by
    simp only [pkgsOfTy, List.mem_append] at hp
    show p.path ∈ (importTyList (importVarList (importVarList imp ps) rs) cs).paths
    rcases hp with (hp | hp) | hp
    · exact paths_mono_of_pre (importTyList_pre _ cs) _
        (paths_mono_of_pre (importVarList_pre _ rs) _ (importVarList_complete imp ps p hp))
    · exact paths_mono_of_pre (importTyList_pre _ cs) _
        (importVarList_complete _ rs p hp)
    · exact importTyList_complete _ cs p hp
  | imp, .strct fs, p, hp => importVarList_complete imp fs p hp
  | imp, .iface ms es, p, hp => by
    simp only [pkgsOfTy, List.mem_append] at hp
    show p.path ∈ (importTyList (importVarList imp ms) es).paths
    rcases hp with hp | hp
    · exact paths_mono_of_pre (importTyList_pre _ es) _
        (importVarList_complete imp ms p hp)
    · exact importTyList_complete _ es p hp
theorem importTyList_complete : ∀ (imp : Importer) (ts : TyList) (p : Pkg),
    p ∈ pkgsOfTyList ts → p.path ∈ (importTyList imp ts).paths
  | imp, .nil, p, hp => absurd hp (by simp [pkgsOfTyList])
  | imp, .cons t ts, p, hp => by
    simp only [pkgsOfTyList, List.mem_append] at hp
    show p.path ∈ (importTyList (importType imp t) ts).paths
    rcases hp with hp | hp
    · exact paths_mono_of_pre (importTyList_pre _ ts) _ (importType_complete imp t p hp)
    · exact importTyList_complete _ ts p hp
theorem importVarList_complete : ∀ (imp : Importer) (vs : VarList) (p : Pkg),
    p ∈ pkgsOfVarList vs → p.path ∈ (importVarList imp vs).paths
  | imp, .nil, p, hp => absurd hp (by simp [pkgsOfVarList])
  | imp, .cons pkg t vs, p, hp => by
    simp only [pkgsOfVarList, List.mem_append] at hp
    show p.path ∈ (importVarList (importType (imp.addImportOpt pkg) t) vs).paths
    rcases hp with (hp | hp) | hp
    · have hpkg : pkg = some p := by
        cases pkg <;> simp_all [Option.toList]
      subst hpkg
      exact paths_mono_of_pre (importVarList_pre _ vs) _
        (paths_mono_of_pre (importType_pre _ t) _ (mem_paths_addImportOpt imp p))
    · exact paths_mono_of_pre (importVarList_pre _ vs) _
        (importType_complete _ t p hp)
    · exact importVarList_complete _ vs p hp
end

mutual
theorem importType_sound : ∀ (imp : Importer) (t : Ty) (s : Str),
    s ∈ (importType imp t).paths → s ∈ imp.paths ∨ s ∈ (pkgsOfTy t).map Pkg.path
  | imp, .basic, s, hs => Or.inl hs
  | imp, .named pkg _u cs args, s, hs => by
    simp only [pkgsOfTy, List.map_append, List.mem_append]
    have hs' : s ∈ (importTyList (importTyList (imp.addImportOpt pkg) cs) args).paths := hs
    rcases importTyList_sound _ args s hs' with h1 | h1
    · rcases importTyList_sound _ cs s h1 with h2 | h2
      · rcases addImportOpt_paths_sub imp pkg s h2 with h3 | h3
        · exact Or.inl h3
        · exact Or.inr (Or.inl (Or.inl h3))
      · exact Or.inr (Or.inl (Or.inr h2))
    · exact Or.inr (Or.inr h1)
  | imp, .ptr t, s, hs => importType_sound imp t s hs
  | imp, .slice t, s, hs => importType_sound imp t s hs
  | imp, .array t, s, hs => importType_sound imp t s hs
  | imp, .chan t, s, hs => importType_sound imp t s hs
  | imp, .map k v, s, hs => by
    simp only [pkgsOfTy, List.map_append, List.mem_append]
    have hs' : s ∈ (importType (importType imp k) v).paths := hs
    rcases importType_sound _ v s hs' with h1 | h1
    · rcases importType_sound imp k s h1 with h2 | h2
      · exact Or.inl h2
      · exact Or.inr (Or.inl h2)
    · exact Or.inr (Or.inr h1)
  | imp, .sig ps rs cs, s, hs => by
    simp only [pkgsOfTy, List.map_append, List.mem_append]
    have hs' : s ∈ (importTyList (importVarList (importVarList imp ps) rs) cs).paths := hs
    rcases importTyList_sound _ cs s hs' with h1 | h1
    · rcases importVarList_sound _ rs s h1 with h2 | h2
      · rcases importVarList_sound imp ps s h2 with h3 | h3
        · exact Or.inl h3
        · exact Or.inr (Or.inl (Or.inl h3))
      · exact Or.inr (Or.inl (Or.inr h2))
    · exact Or.inr (Or.inr h1)
  | imp, .strct fs, s, hs => importVarList_sound imp fs s hs
  | imp, .iface ms es, s, hs => by
    simp only [pkgsOfTy, List.map_append, List.mem_append]
    have hs' : s ∈ (importTyList (importVarList imp ms) es).paths := hs
    rcases importTyList_sound _ es s hs' with h1 | h1
    · rcases importVarList_sound imp ms s h1 with h2 | h2
      · exact Or.inl h2
      · exact Or.inr (Or.inl h2)
    · exact Or.inr (Or.inr h1)
theorem importTyList_sound : ∀ (imp : Importer) (ts : TyList) (s : Str),
    s ∈ (importTyList imp ts).paths → s ∈ imp.paths ∨ s ∈ (pkgsOfTyList ts).map Pkg.path
  | imp, .nil, s, hs => Or.inl hs
  | imp, .cons t ts, s, hs => by
    simp only [pkgsOfTyList, List.map_append, List.mem_append]
    have hs' : s ∈ (importTyList (importType imp t) ts).paths := hs
    rcases importTyList_sound _ ts s hs' with h1 | h1
    · rcases importType_sound imp t s h1 with h2 | h2
      · exact Or.inl h2
      · exact Or.inr (Or.inl h2)
    · exact Or.inr (Or.inr h1)
theorem importVarList_sound : ∀ (imp : Importer) (vs : VarList) (s : Str),
    s ∈ (importVarList imp vs).paths → s ∈ imp.paths ∨ s ∈ (pkgsOfVarList vs).map Pkg.path
  | imp, .nil, s, hs => Or.inl hs
  | imp, .cons pkg t vs, s, hs => by
    simp only [pkgsOfVarList, List.map_append, List.mem_append]
    have hs' : s ∈ (importVarList (importType (imp.addImportOpt pkg) t) vs).paths := hs
    rcases importVarList_sound _ vs s hs' with h1 | h1
    · rcases importType_sound _ t s h1 with h2 | h2
      · rcases addImportOpt_paths_sub imp pkg s h2 with h3 | h3
        · exact Or.inl h3
        · exact Or.inr (Or.inl (Or.inl h3))
      · exact Or.inr (Or.inl (Or.inr h2))
    · exact Or.inr (Or.inr h1)
end

mutual
theorem namedOwnersTy_sub : ∀ (t : Ty) (p : Pkg), p ∈ namedOwnersTy t → p ∈ pkgsOfTy t
  | .basic, p, hp => hp
  | .named pkg _u cs args, p, hp => by
    simp only [namedOwnersTy, List.mem_append] at hp
    simp only [pkgsOfTy, List.mem_append]
    rcases hp with (hp | hp) | hp
    · exact Or.inl (Or.inl hp)
    · exact Or.inl (Or.inr (namedOwnersTyList_sub cs p hp))
    · exact Or.inr (namedOwnersTyList_sub args p hp)
  | .ptr t, p, hp => namedOwnersTy_sub t p hp
  | .slice t, p, hp => namedOwnersTy_sub t p hp
  | .array t, p, hp => namedOwnersTy_sub t p hp
  | .chan t, p, hp => namedOwnersTy_sub t p hp
  | .map k v, p, hp => by
    simp only [namedOwnersTy, List.mem_append] at hp
    simp only [pkgsOfTy, List.mem_append]
    rcases hp with hp | hp
    · exact Or.inl (namedOwnersTy_sub k p hp)
    · exact Or.inr (namedOwnersTy_sub v p hp)
  | .sig ps rs cs, p, hp => by
    simp only [namedOwnersTy, List.mem_append] at hp
    simp only [pkgsOfTy, List.mem_append]
    rcases hp with (hp | hp) | hp
    · exact Or.inl (Or.inl (namedOwnersVarList_sub ps p hp))
    · exact Or.inl (Or.inr (namedOwnersVarList_sub rs p hp))
    · exact Or.inr (namedOwnersTyList_sub cs p hp)
  | .strct fs, p, hp => namedOwnersVarList_sub fs p hp
  | .iface ms es, p, hp => by
    simp only [namedOwnersTy, List.mem_append] at hp
    simp only [pkgsOfTy, List.mem_append]
    rcases hp with hp | hp
    · exact Or.inl (namedOwnersVarList_sub ms p hp)
    · exact Or.inr (namedOwnersTyList_sub es p hp)
theorem namedOwnersTyList_sub : ∀ (ts : TyList) (p : Pkg),
    p ∈ namedOwnersTyList ts → p ∈ pkgsOfTyList ts
  | .nil, p, hp => hp
  | .cons t ts, p, hp => by
    simp only [namedOwnersTyList, List.mem_append] at hp
    simp only [pkgsOfTyList, List.mem_append]
    rcases hp with hp | hp
    · exact Or.inl (namedOwnersTy_sub t p hp)
    · exact Or.inr (namedOwnersTyList_sub ts p hp)
theorem namedOwnersVarList_sub : ∀ (vs : VarList) (p : Pkg),
    p ∈ namedOwnersVarList vs → p ∈ pkgsOfVarList vs
  | .nil, p, hp => hp
  | .cons pkg t vs, p, hp => by
    simp only [namedOwnersVarList, List.mem_append] at hp
    simp only [pkgsOfVarList, List.mem_append]
    rcases hp with hp | hp
    · exact Or.inl (Or.inr (namedOwnersTy_sub t p hp))
    · exact Or.inr (namedOwnersVarList_sub vs p hp)
end

/-- A `types.Object` as the symbol table sees it: its name, its owning
package (`Pkg()`, possibly nil) and its type. -/
structure Obj where
  name : Str
  pkg : Option Pkg
  ty : Ty

/-- `newObjectResolver`: constructing a symbol's resolver walks the
symbol's type and registers every package it mentions. -/
def newObjectResolver (imp : Importer) (o : Obj) : Importer :=
  importType imp o.ty

/-- C4: for every symbol constructed over the import registry, every
named type reachable from the symbol's type through the walked edges
(pointers, slices, arrays, maps, channels, signature parameters, results,
struct fields, interface methods and embeddeds, type-parameter
constraints and type arguments) contributes its owning package to the
registry, so it appears in `Imports()`. -/
theorem c4_reachable_named_owner_imported (imp : Importer) (o : Obj) (p : Pkg)
    (hp : p ∈ namedOwnersTy o.ty) : p.path ∈ (newObjectResolver imp o).paths :=
  importType_complete imp o.ty p (namedOwnersTy_sub o.ty p hp)

theorem c4_witness :
    (⟨"deep/pkg".data, "deep".data⟩ : Pkg) ∈ namedOwnersTy
        (Ty.strct (VarList.cons none
          (Ty.slice (Ty.named (some ⟨"deep/pkg".data, "deep".data⟩) Ty.basic
            TyList.nil TyList.nil)) VarList.nil)) ∧
      ("deep/pkg".data : Str) ∈ (newObjectResolver Importer.new
        ⟨"F".data, none,
          Ty.strct (VarList.cons none
            (Ty.slice (Ty.named (some ⟨"deep/pkg".data, "deep".data⟩) Ty.basic
              TyList.nil TyList.nil)) VarList.nil)⟩).paths :=
  ⟨by decide,
    c4_reachable_named_owner_imported Importer.new
      ⟨"F".data, none,
        Ty.strct (VarList.cons none
          (Ty.slice (Ty.named (some ⟨"deep/pkg".data, "deep".data⟩) Ty.basic
            TyList.nil TyList.nil)) VarList.nil)⟩
      ⟨"deep/pkg".data, "deep".data⟩ (by decide)⟩

/-- C9: visiting a named type registers only its owner (and walks its
constraints and arguments): the walk result does not depend on the
underlying type at all, and a package referenced only by the underlying
type is absent from the registry after the walk. -/
theorem c9_named_type_underlying_not_walked (imp : Importer) (pkg : Option Pkg)
    (u : Ty) (cs args : TyList) (p : Pkg)
    (hnotimp : p.path ∉ imp.paths)
    (hnotcontrib : p.path ∉ (pkgsOfTy (Ty.named pkg u cs args)).map Pkg.path)
    (hunder : p ∈ pkgsOfTy u) :
    importType imp (Ty.named pkg u cs args) = importType imp (Ty.named pkg Ty.basic cs args) ∧
    p.path ∉ (importType imp (Ty.named pkg u cs args)).paths := by
  refine ⟨rfl, ?_⟩
  intro hmem
  rcases importType_sound imp _ _ hmem with h | h
  · exact hnotimp h
  · exact hnotcontrib h

theorem c9_witness :
    (("hidden/pkg".data : Str) ∉ Importer.new.paths) ∧
      (("hidden/pkg".data : Str) ∉ (pkgsOfTy (Ty.named (some ⟨"outer/pkg".data, "outer".data⟩)
        (Ty.named (some ⟨"hidden/pkg".data, "hidden".data⟩) Ty.basic TyList.nil TyList.nil)
        TyList.nil TyList.nil)).map Pkg.path) ∧
      ((⟨"hidden/pkg".data, "hidden".data⟩ : Pkg) ∈ pkgsOfTy
        (Ty.named (some ⟨"hidden/pkg".data, "hidden".data⟩) Ty.basic TyList.nil TyList.nil)) ∧
      (("hidden/pkg".data : Str) ∉ (importType Importer.new
        (Ty.named (some ⟨"outer/pkg".data, "outer".data⟩)
          (Ty.named (some ⟨"hidden/pkg".data, "hidden".data⟩) Ty.basic TyList.nil TyList.nil)
          TyList.nil TyList.nil)).paths) :=
  ⟨by decide, by decide, by decide,
    (c9_named_type_underlying_not_walked Importer.new
      (some ⟨"outer/pkg".data, "outer".data⟩)
      (Ty.named (some ⟨"hidden/pkg".data, "hidden".data⟩) Ty.basic TyList.nil TyList.nil)
      TyList.nil TyList.nil ⟨"hidden/pkg".data, "hidden".data⟩
      (by decide) (by decide) (by decide)).2⟩

/-! ## The `Aliaser` symbol table (`aliaser.go`)

The duplicate policy (`OnDuplicate*`) and the object kind (`objectId`)
are Go `int` values, so they are modelled as `Int` — the `default`
branches of the two `switch` statements are reachable for values outside
the named constants.  A Go `panic` is the `Except.error` branch. -/

def constantId : Int := 1

def variableId : Int := 2

def functionId : Int := 3

def typeId : Int := 4

def OnDuplicateSkip : Int := 0

def OnDuplicateReplace : Int := 1

def OnDuplicatePanic : Int := 2

/-- The two `panic` calls of `addObjectName`/`deleteObject`. -/
inductive GoPanic where
  | duplicateObjectName (name : Str) : GoPanic
  | unexpectedOnDuplicate (v : Int) : GoPanic
  | unexpectedObjectId (v : Int) : GoPanic
deriving DecidableEq

/-- The `Aliaser` state: the embedded import registry, the four object
sequences, the name index (`names *set.Set[string, objectId]`, an
association list with duplicate-free keys here) and the configured
duplicate policy. -/
structure Aliaser where
  importer : Importer
  constants : List Obj
  vars : List Obj
  functions : List Obj
  types : List Obj
  names : List (Str × Int)
  onDuplicate : Int

/-- A fresh `Aliaser` (empty sequences and index) with the given
duplicate policy. -/
def Aliaser.empty (d : Int) : Aliaser :=
  ⟨Importer.new, [], [], [], [], [], d⟩

/-- The sequence holding objects of the given kind. -/
def Aliaser.seqOf (a : Aliaser) (id : Int) : List Obj :=
  if id = constantId then a.constants
  else if id = variableId then a.vars
  else if id = functionId then a.functions
  else if id = typeId then a.types
  else []

/-- `Aliaser.deleteObject`: remove every object with the given name from
the sequence selected by `id` (`slices.DeleteFunc` with name equality);
an unexpected `id` hits the development trap and panics. -/
def Aliaser.deleteObject (a : Aliaser) (name : Str) (id : Int) : Except GoPanic Aliaser :=
  if id = constantId then
    .ok { a with constants := a.constants.filter (fun o => ¬ o.name = name) }
  else if id = variableId then
    .ok { a with vars := a.vars.filter (fun o => ¬ o.name = name) }
  else if id = functionId then
    .ok { a with functions := a.functions.filter (fun o => ¬ o.name = name) }
  else if id = typeId then
    .ok { a with types := a.types.filter (fun o => ¬ o.name = name) }
  else .error (.unexpectedObjectId id)

/-- `Aliaser.addObjectName`: try `names.PutNX(name, id)`; on success
return `skip = false`.  Otherwise consult the policy: Skip keeps the old
object, Replace swaps the index entry to the new kind and deletes the old
object from its sequence, Panic aborts, and any other value hits the
development trap. -/
def Aliaser.addObjectName (a : Aliaser) (name : Str) (id : Int) :
    Except GoPanic (Bool × Aliaser) :=
  match a.names.find? (fun kv => kv.1 = name) with
  | none => .ok (false, { a with names := a.names ++ [(name, id)] })
  | some kv =>
    if a.onDuplicate = OnDuplicateSkip then .ok (true, a)
    else if a.onDuplicate = OnDuplicateReplace then
      (Aliaser.deleteObject
        { a with names := a.names.map (fun e => if e.1 = name then (name, id) else e) }
        name kv.2).map (fun a' => (false, a'))
    else if a.onDuplicate = OnDuplicatePanic then .error (.duplicateObjectName name)
    else .error (.unexpectedOnDuplicate a.onDuplicate)

/-- `Aliaser.addConstant`: on a non-skipped name, append the wrapped
constant (whose resolver walks the type, registering imports) and then
add the constant's own package. -/
def Aliaser.addConstant (a : Aliaser) (c : Obj) : Except GoPanic Aliaser :=
  match a.addObjectName c.name constantId with
  | .error e => .error e
  | .ok (true, a') => .ok a'
  | .ok (false, a') => .ok { a' with
      constants := a'.constants ++ [c],
      importer := (newObjectResolver a'.importer c).addImportOpt c.pkg }

/-- `Aliaser.addVariable` (the `vars` field models the Go `variables`
field): on a non-skipped name, add the variable's own package and append
the wrapped variable (whose resolver walks the type). -/
def Aliaser.addVariable (a : Aliaser) (v : Obj) : Except GoPanic Aliaser :=
  match a.addObjectName v.name variableId with
  | .error e => .error e
  | .ok (true, a') => .ok a'
  | .ok (false, a') => .ok { a' with
      vars := a'.vars ++ [v],
      importer := newObjectResolver (a'.importer.addImportOpt v.pkg) v }

/-- `Aliaser.addFunction`, like `addVariable` for the functions
sequence. -/
def Aliaser.addFunction (a : Aliaser) (fn : Obj) : Except GoPanic Aliaser :=
  match a.addObjectName fn.name functionId with
  | .error e => .error e
  | .ok (true, a') => .ok a'
  | .ok (false, a') => .ok { a' with
      functions := a'.functions ++ [fn],
      importer := newObjectResolver (a'.importer.addImportOpt fn.pkg) fn }

/-- `Aliaser.addType`, like `addVariable` for the types sequence. -/
def Aliaser.addType (a : Aliaser) (t : Obj) : Except GoPanic Aliaser :=
  match a.addObjectName t.name typeId with
  | .error e => .error e
  | .ok (true, a') => .ok a'
  | .ok (false, a') => .ok { a' with
      types := a'.types ++ [t],
      importer := newObjectResolver (a'.importer.addImportOpt t.pkg) t }

/-- The symbol-table invariant: index keys are unique, every index entry
names a valid kind whose sequence holds exactly one object with that
name, and every object in a sequence is indexed under that sequence's
kind (so a name absent from the index occurs in no sequence). -/
def TableInv (a : Aliaser) : Prop :=
  (a.names.map Prod.fst).Nodup ∧
  (∀ p ∈ a.names,
    p.2 = constantId ∨ p.2 = variableId ∨ p.2 = functionId ∨ p.2 = typeId) ∧
  (∀ p ∈ a.names, (a.seqOf p.2).countP (fun o => o.name = p.1) = 1) ∧
  (∀ id ∈ [constantId, variableId, functionId, typeId],
    ∀ o ∈ a.seqOf id, (o.name, id) ∈ a.names)

instance (a : Aliaser) : Decidable (TableInv a) :=
  decidable_of_iff ((a.names.map Prod.fst).Nodup ∧
    (∀ p ∈ a.names,
      p.2 = constantId ∨ p.2 = variableId ∨ p.2 = functionId ∨ p.2 = typeId) ∧
    (∀ p ∈ a.names, (a.seqOf p.2).countP (fun o => o.name = p.1) = 1) ∧
    (∀ id ∈ [constantId, variableId, functionId, typeId],
      ∀ o ∈ a.seqOf id, (o.name, id) ∈ a.names)) Iff.rfl

/-! ## Bookkeeping for the invariant proofs -/

/-- Replace the sequence selected by a (valid) kind. -/
def Aliaser.withSeq (a : Aliaser) (id : Int) (l : List Obj) : Aliaser :=
  if id = constantId then { a with constants := l }
  else if id = variableId then { a with vars := l }
  else if id = functionId then { a with functions := l }
  else if id = typeId then { a with types := l }
  else a

/-- Valid object kinds. -/
def ValidId (id : Int) : Prop :=
  id = constantId ∨ id = variableId ∨ id = functionId ∨ id = typeId

instance (id : Int) : Decidable (ValidId id) :=
  decidable_of_iff (id = constantId ∨ id = variableId ∨ id = functionId ∨ id = typeId) Iff.rfl

theorem seqOf_withSeq_same (a : Aliaser) (l : List Obj) {id : Int} (hid : ValidId id) :
    (a.withSeq id l).seqOf id = l := by
  rcases hid with rfl | rfl | rfl | rfl <;>
    simp [Aliaser.withSeq, Aliaser.seqOf, constantId, variableId, functionId, typeId]

theorem seqOf_withSeq_other (a : Aliaser) (l : List Obj) {id j : Int} (h : j ≠ id) :
    (a.withSeq id l).seqOf j = a.seqOf j := by
  unfold Aliaser.withSeq Aliaser.seqOf
  split_ifs <;> simp_all

theorem names_withSeq (a : Aliaser) (id : Int) (l : List Obj) :
    (a.withSeq id l).names = a.names := by
  unfold Aliaser.withSeq
  split_ifs <;> rfl

theorem onDuplicate_withSeq (a : Aliaser) (id : Int) (l : List Obj) :
    (a.withSeq id l).onDuplicate = a.onDuplicate := by
  unfold Aliaser.withSeq
  split_ifs <;> rfl

/-- `deleteObject` at a valid kind filters that kind's sequence. -/
theorem deleteObject_eq_withSeq (a : Aliaser) (name : Str) {id : Int} (hid : ValidId id) :
    a.deleteObject name id =
      .ok (a.withSeq id ((a.seqOf id).filter (fun o => ¬ o.name = name))) := by
  rcases hid with rfl | rfl | rfl | rfl <;>
    simp [Aliaser.deleteObject, Aliaser.withSeq, Aliaser.seqOf,
      constantId, variableId, functionId, typeId]

/-- The state produced by inserting a fresh name. -/
def Aliaser.insertFresh (a : Aliaser) (c : Obj) (id : Int) : Aliaser :=
  { a.withSeq id (a.seqOf id ++ [c]) with names := a.names ++ [(c.name, id)] }

/-- The state produced by the Replace policy: rebind the name to the new
kind, drop the old object from its sequence, append the new one. -/
def Aliaser.replaceObj (a : Aliaser) (c : Obj) (id oldId : Int) : Aliaser :=
  let a₁ : Aliaser :=
    { a with names := a.names.map (fun e => if e.1 = c.name then (c.name, id) else e) }
  let a₂ := a₁.withSeq oldId ((a₁.seqOf oldId).filter (fun o => ¬ o.name = c.name))
  a₂.withSeq id (a₂.seqOf id ++ [c])

theorem binding_unique {names : List (Str × Int)} (hnd : (names.map Prod.fst).Nodup)
    {n : Str} {i j : Int} (hi : (n, i) ∈ names) (hj : (n, j) ∈ names) : i = j := by
  have := List.inj_on_of_nodup_map hnd hi hj rfl
  exact congrArg Prod.snd this

theorem seqOf_names_update (a : Aliaser) (N : List (Str × Int)) (j : Int) :
    ({ a with names := N } : Aliaser).seqOf j = a.seqOf j := by
  unfold Aliaser.seqOf
  split_ifs <;> rfl

theorem upd_keys (names : List (Str × Int)) (n : Str) (id : Int) :
    ((names.map (fun e => if e.1 = n then (n, id) else e)).map Prod.fst) =
      names.map Prod.fst := by
  rw [List.map_map]
  refine List.map_congr_left ?_
  intro e _
  by_cases h : e.1 = n
  · simp [h]
  · simp [h]

theorem mem_upd_self {names : List (Str × Int)} {n : Str} {oldId : Int} (id : Int)
    (h : (n, oldId) ∈ names) :
    (n, id) ∈ names.map (fun e => if e.1 = n then (n, id) else e) := by
  refine List.mem_map.mpr ⟨(n, oldId), h, ?_⟩
  simp

theorem mem_upd_of_ne {names : List (Str × Int)} {n : Str} {id : Int} {p : Str × Int}
    (hp : p ∈ names) (hne : p.1 ≠ n) :
    p ∈ names.map (fun e => if e.1 = n then (n, id) else e) := by
  refine List.mem_map.mpr ⟨p, hp, ?_⟩
  simp [hne]

theorem mem_upd_inv {names : List (Str × Int)} {n : Str} {id : Int} {q : Str × Int}
    (hq : q ∈ names.map (fun e => if e.1 = n then (n, id) else e)) :
    q = (n, id) ∨ (q ∈ names ∧ q.1 ≠ n) := by
  obtain ⟨e, he, hqe⟩ := List.mem_map.mp hq
  by_cases h : e.1 = n
  · rw [if_pos h] at hqe
    exact Or.inl hqe.symm
  · rw [if_neg h] at hqe
    exact Or.inr ⟨hqe ▸ he, hqe ▸ h⟩

theorem countP_filter_ne {l : List Obj} {m n : Str} (h : m ≠ n) :
    (l.filter (fun o => ¬ o.name = n)).countP (fun o => o.name = m) =
      l.countP (fun o => o.name = m) := by
  rw [List.countP_filter]
  refine List.countP_congr ?_
  intro o _
  by_cases h1 : o.name = m
  · have h2 : ¬ o.name = n := fun hn => h (h1 ▸ hn)
    simp [h1, h2, h]
  · simp [h1]

theorem countP_filter_self {l : List Obj} {n : Str} :
    (l.filter (fun o => ¬ o.name = n)).countP (fun o => o.name = n) = 0 := by
  rw [List.countP_eq_zero]
  intro o ho
  have := List.mem_filter.mp ho
  simp_all

theorem countP_append_single (l : List Obj) (c : Obj) (m : Str) :
    (l ++ [c]).countP (fun o => o.name = m) =
      l.countP (fun o => o.name = m) + (if c.name = m then 1 else 0) := by
  rw [List.countP_append]
  simp [List.countP_cons]

theorem not_mem_seq_of_fresh {a : Aliaser} (hinv : TableInv a) {n : Str}
    (hfresh : n ∉ a.names.map Prod.fst) {id : Int} (hid : ValidId id) :
    (a.seqOf id).countP (fun o => o.name = n) = 0 := by
  rw [List.countP_eq_zero]
  intro o ho hpred
  have hname : o.name = n := by simpa using hpred
  have hmem := hinv.2.2.2 id (by rcases hid with rfl | rfl | rfl | rfl <;> simp) o ho
  exact hfresh (hname ▸ List.mem_map_of_mem Prod.fst hmem)

theorem tableInv_insertFresh {a : Aliaser} (hinv : TableInv a) (c : Obj) {id : Int}
    (hid : ValidId id) (hfresh : c.name ∉ a.names.map Prod.fst) :
    TableInv (a.insertFresh c id) := by
  obtain ⟨hnd, hbound, hcount, hcover⟩ := hinv
  have hseq : ∀ j, (a.insertFresh c id).seqOf j =
      (a.withSeq id (a.seqOf id ++ [c])).seqOf j := by
    intro j
    exact seqOf_names_update _ _ j
  have hnames : (a.insertFresh c id).names = a.names ++ [(c.name, id)] := rfl
  refine ⟨?_, ?_, ?_, ?_⟩
  · rw [hnames, List.map_append]
    refine List.Nodup.append hnd (List.nodup_singleton _) ?_
    intro x hx hx2
    simp only [List.map_cons, List.map_nil, List.mem_singleton] at hx2
    subst hx2
    exact hfresh hx
  · intro p hp
    rw [hnames] at hp
    rcases List.mem_append.mp hp with h | h
    · exact hbound p h
    · have hpc : p = (c.name, id) := by simpa using h
      subst hpc
      exact hid
  · intro p hp
    rw [hnames] at hp
    rw [hseq p.2]
    rcases List.mem_append.mp hp with h | h
    · have hpne : p.1 ≠ c.name := by
        intro he
        exact hfresh (he ▸ List.mem_map_of_mem Prod.fst h)
      by_cases hj : p.2 = id
      · rw [hj, seqOf_withSeq_same _ _ hid, countP_append_single]
        have hc := hcount p h
        rw [hj] at hc
        rw [hc, if_neg (fun hh => hpne hh.symm)]
      · rw [seqOf_withSeq_other _ _ hj]
        exact hcount p h
    · have hpc : p = (c.name, id) := by simpa using h
      subst hpc
      show ((a.withSeq id (a.seqOf id ++ [c])).seqOf id).countP (fun o => o.name = c.name) = 1
      rw [seqOf_withSeq_same _ _ hid, countP_append_single,
        not_mem_seq_of_fresh ⟨hnd, hbound, hcount, hcover⟩ hfresh hid, if_pos rfl]
  · intro j hj o ho
    rw [hseq j] at ho
    rw [hnames]
    by_cases hj2 : j = id
    · subst hj2
      rw [seqOf_withSeq_same _ _ hid] at ho
      rcases List.mem_append.mp ho with h | h
      · exact List.mem_append.mpr (Or.inl (hcover j hj o h))
      · have hoc : o = c := by simpa using h
        subst hoc
        exact List.mem_append.mpr (Or.inr (by simp))
    · rw [seqOf_withSeq_other _ _ hj2] at ho
      exact List.mem_append.mpr (Or.inl (hcover j hj o ho))

theorem seqOf_replaceObj (a : Aliaser) (c : Obj) {id oldId : Int}
    (hid : ValidId id) (holdValid : ValidId oldId) (j : Int) :
    (a.replaceObj c id oldId).seqOf j =
      if j = id then
        (if id = oldId then (a.seqOf oldId).filter (fun o => ¬ o.name = c.name)
          else a.seqOf id) ++ [c]
      else if j = oldId then (a.seqOf oldId).filter (fun o => ¬ o.name = c.name)
      else a.seqOf j := by
  unfold Aliaser.replaceObj
  have hA₁ : ∀ k, ({ a with
      names := a.names.map (fun e => if e.1 = c.name then (c.name, id) else e) } : Aliaser).seqOf k
      = a.seqOf k := fun k => seqOf_names_update a _ k
  by_cases hj : j = id
  · subst hj
    rw [if_pos rfl, seqOf_withSeq_same _ _ hid]
    by_cases hjo : j = oldId
    · subst hjo
      rw [if_pos rfl, seqOf_withSeq_same _ _ holdValid, hA₁]
    · rw [if_neg hjo, seqOf_withSeq_other _ _ hjo, hA₁]
  · rw [if_neg hj, seqOf_withSeq_other _ _ hj]
    by_cases hjo : j = oldId
    · subst hjo
      rw [if_pos rfl, seqOf_withSeq_same _ _ holdValid, hA₁]
    · rw [if_neg hjo, seqOf_withSeq_other _ _ hjo, hA₁]

theorem names_replaceObj (a : Aliaser) (c : Obj) (id oldId : Int) :
    (a.replaceObj c id oldId).names =
      a.names.map (fun e => if e.1 = c.name then (c.name, id) else e) := by
  unfold Aliaser.replaceObj
  rw [names_withSeq, names_withSeq]

theorem tableInv_replaceObj {a : Aliaser} (hinv : TableInv a) (c : Obj) {id oldId : Int}
    (hid : ValidId id) (hold : (c.name, oldId) ∈ a.names) :
    TableInv (a.replaceObj c id oldId) := by
  obtain ⟨hnd, hbound, hcount, hcover⟩ := hinv
  have holdValid : ValidId oldId := hbound _ hold
  have hseq := seqOf_replaceObj a c hid holdValid
  have hnames := names_replaceObj a c id oldId
  have hcount_old_zero : id ≠ oldId →
      (a.seqOf id).countP (fun o => o.name = c.name) = 0 := by
    intro hne
    rw [List.countP_eq_zero]
    intro o ho hpred
    have hname : o.name = c.name := by simpa using hpred
    have hmem := hcover id (by rcases hid with rfl | rfl | rfl | rfl <;> simp) o ho
    rw [hname] at hmem
    exact hne (binding_unique hnd hmem hold)
  refine ⟨?_, ?_, ?_, ?_⟩
  · rw [hnames, upd_keys]
    exact hnd
  · intro p hp
    rw [hnames] at hp
    rcases mem_upd_inv hp with h | ⟨h, _⟩
    · subst h
      exact hid
    · exact hbound p h
  · intro p hp
    rw [hnames] at hp
    rw [hseq p.2]
    rcases mem_upd_inv hp with h | ⟨h, hne⟩
    · have hp1 : p.1 = c.name := by rw [h]
      have hp2 : p.2 = id := by rw [h]
      rw [hp1, hp2, if_pos rfl, countP_append_single, if_pos rfl]
      by_cases hio : id = oldId
      · rw [if_pos hio, countP_filter_self]
      · rw [if_neg hio, hcount_old_zero hio]
    · have hcn : ¬ c.name = p.1 := fun hh => hne hh.symm
      by_cases hj : p.2 = id
      · rw [if_pos hj]
        by_cases hio : id = oldId
        · rw [if_pos hio, countP_append_single, countP_filter_ne hne, if_neg hcn]
          have hc := hcount p h
          rw [hj, hio] at hc
          rw [hc]
        · rw [if_neg hio, countP_append_single, if_neg hcn]
          have hc := hcount p h
          rw [hj] at hc
          rw [hc]
      · rw [if_neg hj]
        by_cases hjo : p.2 = oldId
        · rw [if_pos hjo, countP_filter_ne hne]
          have hc := hcount p h
          rw [hjo] at hc
          exact hc
        · rw [if_neg hjo]
          exact hcount p h
  · intro j hj o ho
    rw [hseq j] at ho
    rw [hnames]
    by_cases hj2 : j = id
    · rw [if_pos hj2] at ho
      rcases List.mem_append.mp ho with h | h
      · by_cases hio : id = oldId
        · rw [if_pos hio] at h
          obtain ⟨hmem, hnz⟩ := List.mem_filter.mp h
          have hne : o.name ≠ c.name := by simpa using hnz
          have := hcover oldId
            (by rcases holdValid with rfl | rfl | rfl | rfl <;> simp) o hmem
          subst hj2
          rw [hio]
          exact mem_upd_of_ne this hne
        · rw [if_neg hio] at h
          have hcov := hcover id
            (by rcases hid with rfl | rfl | rfl | rfl <;> simp) o h
          have hne : o.name ≠ c.name := by
            intro he
            rw [he] at hcov
            exact hio (binding_unique hnd hcov hold)
          subst hj2
          exact mem_upd_of_ne hcov hne
      · have hoc : o = c := by simpa using h
        subst hoc
        subst hj2
        exact mem_upd_self _ hold
    · rw [if_neg hj2] at ho
      by_cases hjo : j = oldId
      · rw [if_pos hjo] at ho
        obtain ⟨hmem, hnz⟩ := List.mem_filter.mp ho
        have hne : o.name ≠ c.name := by simpa using hnz
        subst hjo
        exact mem_upd_of_ne (hcover j hj o hmem) hne
      · rw [if_neg hjo] at ho
        have hcov := hcover j hj o ho
        have hne : o.name ≠ c.name := by
          intro he
          rw [he] at hcov
          exact hjo (binding_unique hnd hcov hold)
        exact mem_upd_of_ne hcov hne

theorem find?_key_eq {names : List (Str × Int)} (hnd : (names.map Prod.fst).Nodup)
    {n : Str} {i : Int} (h : (n, i) ∈ names) :
    names.find? (fun kv => kv.1 = n) = some (n, i) := by
  induction names with
  | nil => cases h
  | cons kv t ih =>
    rw [List.map_cons, List.nodup_cons] at hnd
    rcases List.mem_cons.mp h with h1 | h1
    · rw [← h1]
      rw [List.find?_cons_of_pos _ (by simp)]
    · have hne : kv.1 ≠ n := by
        intro he
        have : n ∈ t.map Prod.fst := List.mem_map.mpr ⟨(n, i), h1, rfl⟩
        exact hnd.1 (he ▸ this)
      rw [List.find?_cons_of_neg _ (by simpa using hne)]
      exact ih hnd.2 h1

theorem find?_names_none {a : Aliaser} {n : Str} (h : n ∉ a.names.map Prod.fst) :
    a.names.find? (fun kv => kv.1 = n) = none := by
  rw [List.find?_eq_none]
  intro kv hkv hk
  exact h (List.mem_map.mpr ⟨kv, hkv, by simpa using hk⟩)

theorem addObjectName_fresh {a : Aliaser} {n : Str} (id : Int)
    (h : n ∉ a.names.map Prod.fst) :
    a.addObjectName n id = .ok (false, { a with names := a.names ++ [(n, id)] }) := by
  rw [Aliaser.addObjectName, find?_names_none h]

theorem addObjectName_skip {a : Aliaser} {n : Str} {i : Int} (id : Int)
    (hnd : (a.names.map Prod.fst).Nodup) (h : (n, i) ∈ a.names)
    (hd : a.onDuplicate = OnDuplicateSkip) :
    a.addObjectName n id = .ok (true, a) := by
  rw [Aliaser.addObjectName, find?_key_eq hnd h, hd]
  rfl

theorem addObjectName_panic {a : Aliaser} {n : Str} {i : Int} (id : Int)
    (hnd : (a.names.map Prod.fst).Nodup) (h : (n, i) ∈ a.names)
    (hd : a.onDuplicate = OnDuplicatePanic) :
    a.addObjectName n id = .error (.duplicateObjectName n) := by
  rw [Aliaser.addObjectName, find?_key_eq hnd h, hd]
  rfl

theorem addObjectName_other {a : Aliaser} {n : Str} {i : Int} (id : Int)
    (hnd : (a.names.map Prod.fst).Nodup) (h : (n, i) ∈ a.names)
    (hd0 : a.onDuplicate ≠ OnDuplicateSkip) (hd1 : a.onDuplicate ≠ OnDuplicateReplace)
    (hd2 : a.onDuplicate ≠ OnDuplicatePanic) :
    a.addObjectName n id = .error (.unexpectedOnDuplicate a.onDuplicate) := by
  simp only [Aliaser.addObjectName, find?_key_eq hnd h]
  rw [if_neg hd0, if_neg hd1, if_neg hd2]

theorem addObjectName_replace {a : Aliaser} {n : Str} {i : Int} (id : Int)
    (hnd : (a.names.map Prod.fst).Nodup) (h : (n, i) ∈ a.names)
    (hd : a.onDuplicate = OnDuplicateReplace) (hiv : ValidId i) :
    a.addObjectName n id = .ok (false,
      ({ a with names := a.names.map (fun e => if e.1 = n then (n, id) else e) } : Aliaser).withSeq i
        ((({ a with names := a.names.map (fun e => if e.1 = n then (n, id) else e) } : Aliaser).seqOf i).filter
          (fun o => ¬ o.name = n))) := by
  simp only [Aliaser.addObjectName, find?_key_eq hnd h]
  rw [if_neg (show ¬ a.onDuplicate = OnDuplicateSkip by rw [hd]; decide), if_pos hd,
    deleteObject_eq_withSeq _ _ hiv]
  rfl

theorem tableInv_importer (a : Aliaser) (imp : Importer) :
    TableInv ({ a with importer := imp }) ↔ TableInv a := Iff.rfl

theorem validId_constant : ValidId constantId := Or.inl rfl

theorem validId_variable : ValidId variableId := Or.inr (Or.inl rfl)

theorem validId_function : ValidId functionId := Or.inr (Or.inr (Or.inl rfl))

theorem validId_type : ValidId typeId := Or.inr (Or.inr (Or.inr rfl))

theorem tableInv_addConstant {a : Aliaser} {c : Obj} {r : Aliaser}
    (hinv : TableInv a) (h : a.addConstant c = .ok r) : TableInv r := by
  by_cases hn : c.name ∈ a.names.map Prod.fst
  · obtain ⟨kv, hkv, hfst⟩ := List.mem_map.mp hn
    have hb : (c.name, kv.2) ∈ a.names := by
      rw [← hfst]
      simpa using hkv
    by_cases hd0 : a.onDuplicate = OnDuplicateSkip
    · rw [Aliaser.addConstant, addObjectName_skip constantId hinv.1 hb hd0] at h
      have hr : a = r := Except.ok.inj h
      exact hr ▸ hinv
    · by_cases hd1 : a.onDuplicate = OnDuplicateReplace
      · have hiv : ValidId kv.2 := hinv.2.1 (c.name, kv.2) hb
        rw [Aliaser.addConstant, addObjectName_replace constantId hinv.1 hb hd1 hiv] at h
        have hr := Except.ok.inj h
        subst hr
        show TableInv { a.replaceObj c constantId kv.2 with
          importer := (newObjectResolver a.importer c).addImportOpt c.pkg }
        rw [tableInv_importer]
        exact tableInv_replaceObj hinv c validId_constant hb
      · by_cases hd2 : a.onDuplicate = OnDuplicatePanic
        · rw [Aliaser.addConstant, addObjectName_panic constantId hinv.1 hb hd2] at h
          exact Except.noConfusion h
        · rw [Aliaser.addConstant,
            addObjectName_other constantId hinv.1 hb hd0 hd1 hd2] at h
          exact Except.noConfusion h
  · rw [Aliaser.addConstant, addObjectName_fresh constantId hn] at h
    have hr := Except.ok.inj h
    subst hr
    show TableInv { a.insertFresh c constantId with
      importer := (newObjectResolver a.importer c).addImportOpt c.pkg }
    rw [tableInv_importer]
    exact tableInv_insertFresh hinv c validId_constant hn

theorem tableInv_addVariable {a : Aliaser} {c : Obj} {r : Aliaser}
    (hinv : TableInv a) (h : a.addVariable c = .ok r) : TableInv r := by
  by_cases hn : c.name ∈ a.names.map Prod.fst
  · obtain ⟨kv, hkv, hfst⟩ := List.mem_map.mp hn
    have hb : (c.name, kv.2) ∈ a.names := by
      rw [← hfst]
      simpa using hkv
    by_cases hd0 : a.onDuplicate = OnDuplicateSkip
    · rw [Aliaser.addVariable, addObjectName_skip variableId hinv.1 hb hd0] at h
      have hr : a = r := Except.ok.inj h
      exact hr ▸ hinv
    · by_cases hd1 : a.onDuplicate = OnDuplicateReplace
      · have hiv : ValidId kv.2 := hinv.2.1 (c.name, kv.2) hb
        rw [Aliaser.addVariable, addObjectName_replace variableId hinv.1 hb hd1 hiv] at h
        have hr := Except.ok.inj h
        subst hr
        show TableInv { a.replaceObj c variableId kv.2 with
          importer := newObjectResolver (a.importer.addImportOpt c.pkg) c }
        rw [tableInv_importer]
        exact tableInv_replaceObj hinv c validId_variable hb
      · by_cases hd2 : a.onDuplicate = OnDuplicatePanic
        · rw [Aliaser.addVariable, addObjectName_panic variableId hinv.1 hb hd2] at h
          exact Except.noConfusion h
        · rw [Aliaser.addVariable,
            addObjectName_other variableId hinv.1 hb hd0 hd1 hd2] at h
          exact Except.noConfusion h
  · rw [Aliaser.addVariable, addObjectName_fresh variableId hn] at h
    have hr := Except.ok.inj h
    subst hr
    show TableInv { a.insertFresh c variableId with
      importer := newObjectResolver (a.importer.addImportOpt c.pkg) c }
    rw [tableInv_importer]
    exact tableInv_insertFresh hinv c validId_variable hn

theorem tableInv_addFunction {a : Aliaser} {c : Obj} {r : Aliaser}
    (hinv : TableInv a) (h : a.addFunction c = .ok r) : TableInv r := by
  by_cases hn : c.name ∈ a.names.map Prod.fst
  · obtain ⟨kv, hkv, hfst⟩ := List.mem_map.mp hn
    have hb : (c.name, kv.2) ∈ a.names := by
      rw [← hfst]
      simpa using hkv
    by_cases hd0 : a.onDuplicate = OnDuplicateSkip
    · rw [Aliaser.addFunction, addObjectName_skip functionId hinv.1 hb hd0] at h
      have hr : a = r := Except.ok.inj h
      exact hr ▸ hinv
    · by_cases hd1 : a.onDuplicate = OnDuplicateReplace
      · have hiv : ValidId kv.2 := hinv.2.1 (c.name, kv.2) hb
        rw [Aliaser.addFunction, addObjectName_replace functionId hinv.1 hb hd1 hiv] at h
        have hr := Except.ok.inj h
        subst hr
        show TableInv { a.replaceObj c functionId kv.2 with
          importer := newObjectResolver (a.importer.addImportOpt c.pkg) c }
        rw [tableInv_importer]
        exact tableInv_replaceObj hinv c validId_function hb
      · by_cases hd2 : a.onDuplicate = OnDuplicatePanic
        · rw [Aliaser.addFunction, addObjectName_panic functionId hinv.1 hb hd2] at h
          exact Except.noConfusion h
        · rw [Aliaser.addFunction,
            addObjectName_other functionId hinv.1 hb hd0 hd1 hd2] at h
          exact Except.noConfusion h
  · rw [Aliaser.addFunction, addObjectName_fresh functionId hn] at h
    have hr := Except.ok.inj h
    subst hr
    show TableInv { a.insertFresh c functionId with
      importer := newObjectResolver (a.importer.addImportOpt c.pkg) c }
    rw [tableInv_importer]
    exact tableInv_insertFresh hinv c validId_function hn

theorem tableInv_addType {a : Aliaser} {c : Obj} {r : Aliaser}
    (hinv : TableInv a) (h : a.addType c = .ok r) : TableInv r := by
  by_cases hn : c.name ∈ a.names.map Prod.fst
  · obtain ⟨kv, hkv, hfst⟩ := List.mem_map.mp hn
    have hb : (c.name, kv.2) ∈ a.names := by
      rw [← hfst]
      simpa using hkv
    by_cases hd0 : a.onDuplicate = OnDuplicateSkip
    · rw [Aliaser.addType, addObjectName_skip typeId hinv.1 hb hd0] at h
      have hr : a = r := Except.ok.inj h
      exact hr ▸ hinv
    · by_cases hd1 : a.onDuplicate = OnDuplicateReplace
      · have hiv : ValidId kv.2 := hinv.2.1 (c.name, kv.2) hb
        rw [Aliaser.addType, addObjectName_replace typeId hinv.1 hb hd1 hiv] at h
        have hr := Except.ok.inj h
        subst hr
        show TableInv { a.replaceObj c typeId kv.2 with
          importer := newObjectResolver (a.importer.addImportOpt c.pkg) c }
        rw [tableInv_importer]
        exact tableInv_replaceObj hinv c validId_type hb
      · by_cases hd2 : a.onDuplicate = OnDuplicatePanic
        · rw [Aliaser.addType, addObjectName_panic typeId hinv.1 hb hd2] at h
          exact Except.noConfusion h
        · rw [Aliaser.addType,
            addObjectName_other typeId hinv.1 hb hd0 hd1 hd2] at h
          exact Except.noConfusion h
  · rw [Aliaser.addType, addObjectName_fresh typeId hn] at h
    have hr := Except.ok.inj h
    subst hr
    show TableInv { a.insertFresh c typeId with
      importer := newObjectResolver (a.importer.addImportOpt c.pkg) c }
    rw [tableInv_importer]
    exact tableInv_insertFresh hinv c validId_type hn

theorem countP_zero_of_other_binding {a : Aliaser} (hinv : TableInv a) {n : Str} {i j : Int}
    (hb : (n, i) ∈ a.names) (hj : ValidId j) (hne : j ≠ i) :
    (a.seqOf j).countP (fun o => o.name = n) = 0 := by
  rw [List.countP_eq_zero]
  intro o ho hpred
  have hname : o.name = n := by simpa using hpred
  have hmem := hinv.2.2.2 j (by rcases hj with rfl | rfl | rfl | rfl <;> simp) o ho
  rw [hname] at hmem
  exact hne (binding_unique hinv.1 hmem hb)

/-- One step of loading: one of the four `Add*` entry points. -/
inductive AddOp where
  | const (c : Obj) : AddOp
  | var (v : Obj) : AddOp
  | func (fn : Obj) : AddOp
  | typ (t : Obj) : AddOp

/-- Apply one add operation. -/
def Aliaser.applyOp (a : Aliaser) : AddOp → Except GoPanic Aliaser
  | .const c => a.addConstant c
  | .var v => a.addVariable v
  | .func fn => a.addFunction fn
  | .typ t => a.addType t

/-- Run a sequence of add operations, stopping at the first panic. -/
def Aliaser.runOps (a : Aliaser) : List AddOp → Except GoPanic Aliaser
  | [] => .ok a
  | op :: ops =>
    match a.applyOp op with
    | .error e => .error e
    | .ok a' => a'.runOps ops

/-- C7: every sequence of add-constant, add-variable, add-function and
add-type operations, under every duplicate policy, preserves the
symbol-table invariant: index keys are unique, each indexed name is
carried by exactly one symbol living in the sequence of its recorded
kind, and no un-indexed symbol exists in any sequence. -/
theorem c7_add_ops_preserve_invariant (a : Aliaser) (ops : List AddOp) (r : Aliaser)
    (hinv : TableInv a) (h : a.runOps ops = .ok r) : TableInv r := by
  induction ops generalizing a with
  | nil =>
    rw [Aliaser.runOps] at h
    exact (Except.ok.inj h) ▸ hinv
  | cons op ops ih =>
    rw [Aliaser.runOps] at h
    cases hop : a.applyOp op with
    | error e =>
      rw [hop] at h
      exact Except.noConfusion h
    | ok a' =>
      rw [hop] at h
      have hinv' : TableInv a' := by
        cases op with
        | const c => exact tableInv_addConstant hinv hop
        | var v => exact tableInv_addVariable hinv hop
        | func fn => exact tableInv_addFunction hinv hop
        | typ t => exact tableInv_addType hinv hop
      exact ih a' hinv' h

theorem c7_witness :
    TableInv (Aliaser.empty OnDuplicateReplace) ∧
      (Aliaser.empty OnDuplicateReplace).runOps
        [AddOp.const ⟨"A".data, none, Ty.basic⟩, AddOp.var ⟨"A".data, none, Ty.basic⟩]
      = .ok ⟨Importer.new, [], [⟨"A".data, none, Ty.basic⟩], [], [],
          [("A".data, variableId)], OnDuplicateReplace⟩ ∧
      TableInv (⟨Importer.new, [], [⟨"A".data, none, Ty.basic⟩], [], [],
          [("A".data, variableId)], OnDuplicateReplace⟩ : Aliaser) :=
  ⟨by decide, rfl,
    c7_add_ops_preserve_invariant (Aliaser.empty OnDuplicateReplace)
      [AddOp.const ⟨"A".data, none, Ty.basic⟩, AddOp.var ⟨"A".data, none, Ty.basic⟩]
      _ (by decide) rfl⟩

/-- C3: inserting a variable named `A` when `A` is indexed as a constant
follows the configured policy.  Replace: the insertion succeeds and
afterwards exactly one symbol named `A` exists — in the variables
sequence — and none in the constants (or any other) sequence, with the
index rebound to the variable kind.  Skip (the default): the state is
returned unchanged, the new variable discarded.  Panic: the insertion
aborts with the duplicate-name panic.  Any other policy value: the
insertion aborts with the integrity-trap panic. -/
theorem c3_duplicate_constant_variable_policy (a : Aliaser) (A : Str) (v : Obj)
    (hinv : TableInv a) (hb : (A, constantId) ∈ a.names) (hv : v.name = A) :
    (a.onDuplicate = OnDuplicateReplace →
      a.addVariable v = .ok { a.replaceObj v variableId constantId with
          importer := newObjectResolver (a.importer.addImportOpt v.pkg) v } ∧
      ∀ r, a.addVariable v = .ok r →
        r.vars.countP (fun o => o.name = A) = 1 ∧
        r.constants.countP (fun o => o.name = A) = 0 ∧
        r.functions.countP (fun o => o.name = A) = 0 ∧
        r.types.countP (fun o => o.name = A) = 0 ∧
        (A, variableId) ∈ r.names) ∧
    (a.onDuplicate = OnDuplicateSkip → a.addVariable v = .ok a) ∧
    (a.onDuplicate = OnDuplicatePanic →
      a.addVariable v = .error (.duplicateObjectName A)) ∧
    (a.onDuplicate ≠ OnDuplicateSkip → a.onDuplicate ≠ OnDuplicateReplace →
      a.onDuplicate ≠ OnDuplicatePanic →
      a.addVariable v = .error (.unexpectedOnDuplicate a.onDuplicate)) := by
  subst hv
  have hseqv := seqOf_replaceObj a v validId_variable validId_constant
  refine ⟨?_, ?_, ?_, ?_⟩
  · intro hd1
    have hr : a.addVariable v = .ok { a.replaceObj v variableId constantId with
        importer := newObjectResolver (a.importer.addImportOpt v.pkg) v } := by
      rw [Aliaser.addVariable,
        addObjectName_replace variableId hinv.1 hb hd1 validId_constant]
      rfl
    refine ⟨hr, ?_⟩
    intro r hr2
    have hre : r = { a.replaceObj v variableId constantId with
        importer := newObjectResolver (a.importer.addImportOpt v.pkg) v } := by
      rw [hr] at hr2
      exact (Except.ok.inj hr2).symm
    subst hre
    have hvars : ({ a.replaceObj v variableId constantId with
        importer := newObjectResolver (a.importer.addImportOpt v.pkg) v } : Aliaser).vars
        = (a.replaceObj v variableId constantId).seqOf variableId := rfl
    have hconsts : ({ a.replaceObj v variableId constantId with
        importer := newObjectResolver (a.importer.addImportOpt v.pkg) v } : Aliaser).constants
        = (a.replaceObj v variableId constantId).seqOf constantId := rfl
    have hfuncs : ({ a.replaceObj v variableId constantId with
        importer := newObjectResolver (a.importer.addImportOpt v.pkg) v } : Aliaser).functions
        = (a.replaceObj v variableId constantId).seqOf functionId := rfl
    have htyps : ({ a.replaceObj v variableId constantId with
        importer := newObjectResolver (a.importer.addImportOpt v.pkg) v } : Aliaser).types
        = (a.replaceObj v variableId constantId).seqOf typeId := rfl
    refine ⟨?_, ?_, ?_, ?_, ?_⟩
    · rw [hvars, hseqv variableId, if_pos rfl,
        if_neg (show ¬ variableId = constantId by decide), countP_append_single, if_pos rfl,
        countP_zero_of_other_binding hinv hb validId_variable
          (show variableId ≠ constantId by decide)]
    · rw [hconsts, hseqv constantId,
        if_neg (show ¬ constantId = variableId by decide), if_pos rfl, countP_filter_self]
    · rw [hfuncs, hseqv functionId,
        if_neg (show ¬ functionId = variableId by decide),
        if_neg (show ¬ functionId = constantId by decide)]
      exact countP_zero_of_other_binding hinv hb validId_function
        (show functionId ≠ constantId by decide)
    · rw [htyps, hseqv typeId,
        if_neg (show ¬ typeId = variableId by decide),
        if_neg (show ¬ typeId = constantId by decide)]
      exact countP_zero_of_other_binding hinv hb validId_type
        (show typeId ≠ constantId by decide)
    · show (v.name, variableId) ∈ ({ a.replaceObj v variableId constantId with
        importer := newObjectResolver (a.importer.addImportOpt v.pkg) v } : Aliaser).names
      have : ({ a.replaceObj v variableId constantId with
          importer := newObjectResolver (a.importer.addImportOpt v.pkg) v } : Aliaser).names
          = (a.replaceObj v variableId constantId).names := rfl
      rw [this, names_replaceObj]
      exact mem_upd_self _ hb
  · intro hd0
    rw [Aliaser.addVariable, addObjectName_skip variableId hinv.1 hb hd0]
  · intro hd2
    rw [Aliaser.addVariable, addObjectName_panic variableId hinv.1 hb hd2]
  · intro hd0 hd1 hd2
    rw [Aliaser.addVariable, addObjectName_other variableId hinv.1 hb hd0 hd1 hd2]

theorem c3_witness :
    TableInv (⟨Importer.new, [⟨"A".data, none, Ty.basic⟩], [], [], [],
        [("A".data, constantId)], OnDuplicateReplace⟩ : Aliaser) ∧
      (("A".data, constantId) ∈ (⟨Importer.new, [⟨"A".data, none, Ty.basic⟩], [], [], [],
        [("A".data, constantId)], OnDuplicateReplace⟩ : Aliaser).names) ∧
      ∀ r, (⟨Importer.new, [⟨"A".data, none, Ty.basic⟩], [], [], [],
          [("A".data, constantId)], OnDuplicateReplace⟩ : Aliaser).addVariable
          ⟨"A".data, none, Ty.basic⟩ = .ok r →
        r.vars.countP (fun o => o.name = "A".data) = 1 ∧
        r.constants.countP (fun o => o.name = "A".data) = 0 ∧
        r.functions.countP (fun o => o.name = "A".data) = 0 ∧
        r.types.countP (fun o => o.name = "A".data) = 0 ∧
        ("A".data, variableId) ∈ r.names :=
  ⟨by decide, by decide,
    ((c3_duplicate_constant_variable_policy
      (⟨Importer.new, [⟨"A".data, none, Ty.basic⟩], [], [], [],
        [("A".data, constantId)], OnDuplicateReplace⟩ : Aliaser)
      ("A".data) ⟨"A".data, none, Ty.basic⟩ (by decide) (by decide) rfl).1 rfl).2⟩

/-- C10: when an insertion of a constant, variable, function or type is
rejected because its name is already indexed — discarded under the Skip
policy or aborted under the Panic policy — the whole aliaser state,
including the four sequences, the name index and the import registry, is
returned unchanged (Skip) or the session aborts without producing a state
(Panic). -/
theorem c10_rejected_insert_state_unchanged (a : Aliaser) (c : Obj) (i : Int)
    (hinv : TableInv a) (hb : (c.name, i) ∈ a.names) :
    (a.onDuplicate = OnDuplicateSkip →
      a.addConstant c = .ok a ∧ a.addVariable c = .ok a ∧
      a.addFunction c = .ok a ∧ a.addType c = .ok a) ∧
    (a.onDuplicate = OnDuplicatePanic →
      a.addConstant c = .error (.duplicateObjectName c.name) ∧
      a.addVariable c = .error (.duplicateObjectName c.name) ∧
      a.addFunction c = .error (.duplicateObjectName c.name) ∧
      a.addType c = .error (.duplicateObjectName c.name)) := by
  constructor
  · intro hd
    refine ⟨?_, ?_, ?_, ?_⟩
    · rw [Aliaser.addConstant, addObjectName_skip constantId hinv.1 hb hd]
    · rw [Aliaser.addVariable, addObjectName_skip variableId hinv.1 hb hd]
    · rw [Aliaser.addFunction, addObjectName_skip functionId hinv.1 hb hd]
    · rw [Aliaser.addType, addObjectName_skip typeId hinv.1 hb hd]
  · intro hd
    refine ⟨?_, ?_, ?_, ?_⟩
    · rw [Aliaser.addConstant, addObjectName_panic constantId hinv.1 hb hd]
    · rw [Aliaser.addVariable, addObjectName_panic variableId hinv.1 hb hd]
    · rw [Aliaser.addFunction, addObjectName_panic functionId hinv.1 hb hd]
    · rw [Aliaser.addType, addObjectName_panic typeId hinv.1 hb hd]

theorem c10_witness :
    TableInv (⟨Importer.new, [⟨"A".data, none, Ty.basic⟩], [], [], [],
        [("A".data, constantId)], OnDuplicateSkip⟩ : Aliaser) ∧
      (("A".data, constantId) ∈ (⟨Importer.new, [⟨"A".data, none, Ty.basic⟩], [], [], [],
        [("A".data, constantId)], OnDuplicateSkip⟩ : Aliaser).names) ∧
      ((⟨Importer.new, [⟨"A".data, none, Ty.basic⟩], [], [], [],
          [("A".data, constantId)], OnDuplicateSkip⟩ : Aliaser).addConstant
          ⟨"A".data, none, Ty.basic⟩ =
        .ok (⟨Importer.new, [⟨"A".data, none, Ty.basic⟩], [], [], [],
          [("A".data, constantId)], OnDuplicateSkip⟩ : Aliaser) ∧
        (⟨Importer.new, [⟨"A".data, none, Ty.basic⟩], [], [], [],
          [("A".data, constantId)], OnDuplicateSkip⟩ : Aliaser).addVariable
          ⟨"A".data, none, Ty.basic⟩ =
        .ok (⟨Importer.new, [⟨"A".data, none, Ty.basic⟩], [], [], [],
          [("A".data, constantId)], OnDuplicateSkip⟩ : Aliaser) ∧
        (⟨Importer.new, [⟨"A".data, none, Ty.basic⟩], [], [], [],
          [("A".data, constantId)], OnDuplicateSkip⟩ : Aliaser).addFunction
          ⟨"A".data, none, Ty.basic⟩ =
        .ok (⟨Importer.new, [⟨"A".data, none, Ty.basic⟩], [], [], [],
          [("A".data, constantId)], OnDuplicateSkip⟩ : Aliaser) ∧
        (⟨Importer.new, [⟨"A".data, none, Ty.basic⟩], [], [], [],
          [("A".data, constantId)], OnDuplicateSkip⟩ : Aliaser).addType
          ⟨"A".data, none, Ty.basic⟩ =
        .ok (⟨Importer.new, [⟨"A".data, none, Ty.basic⟩], [], [], [],
          [("A".data, constantId)], OnDuplicateSkip⟩ : Aliaser)) :=
  ⟨by decide, by decide,
    (c10_rejected_insert_state_unchanged
      (⟨Importer.new, [⟨"A".data, none, Ty.basic⟩], [], [], [],
        [("A".data, constantId)], OnDuplicateSkip⟩ : Aliaser)
      ⟨"A".data, none, Ty.basic⟩ constantId (by decide) (by decide)).1 rfl⟩
